import Mathlib

/-!
Verification of `prefect/utilities/collections.py`.

The development shallowly embeds the Python module into Lean:

* `Value` is a universe of the Python values `visit_collection` can meet:
  `None`, ints, strings, lists, tuples, sets, `dict`/`OrderedDict`
  (tagged by `DK`), dataclass instances, pydantic `BaseModel` instances,
  iterators, `unittest.mock.Mock` objects, `BaseAnnotation` wrappers and
  the `revisit` annotation.
* `visitC` is `visit_collection` itself.  Python's unbounded recursion
  (the visit function may return arbitrary replacement values in
  `return_data` mode) is modelled with a fuel parameter; running out of
  fuel yields `VErr.fuel`.  Python exceptions raised while reconstructing
  a collection (e.g. `TypeError: unhashable type`) are modelled by
  `VErr.exc`.  The mutable `context` dict is modelled by explicit state
  passing: the result carries the final contents of the dict the caller
  passed in (nested calls receive `context.copy()`, so their mutations
  are dropped, exactly as in the source).  The visit function may carry
  its own closure state of type `S`, threaded through calls in execution
  order, which lets theorems observe which nodes were visited.
* `dict_to_flatdict` / `flatdict_to_dict` and `batched_iterable` are
  embedded separately over a small nested-mapping universe `NV`.
-/

/-- Concrete mapping subtype: `dict` vs `collections.OrderedDict`. -/
inductive DK where
  | plain
  | ordered
deriving DecidableEq, Repr

/-- Python exceptions that the embedded operations can raise.
`traversalError` is never produced by the code; the constructor exists
only so that the spec's claimed failure mode can be stated and compared
with what the code actually raises. -/
inductive PyExc where
  | typeError (msg : String)
  | valueError (msg : String)
  | validationError (field : String)
  | traversalError (path : List String) (msg : String)
deriving DecidableEq, Repr

/-- `true` only for the spec's claimed `TraversalError`. -/
def PyExc.isTraversal : PyExc → Bool
  | .traversalError _ _ => true
  | _ => false

/-- Failure of an embedded `visit_collection` run: either the fuel bound
was reached (the Python original would still be running) or a Python
exception was raised. -/
inductive VErr where
  | fuel
  | exc (e : PyExc)
deriving DecidableEq, Repr

/-- The universe of Python values traversed by `visit_collection`.

A pydantic model instance `vmodel decl privNames vals fieldsSet privs`
carries its class declaration (`decl`: field name, registered alias,
default), the class's private attribute names, the instance's current
field values, its `__fields_set__`, and its current private attribute
values. -/
inductive Value where
  | vnone
  | vint (n : Int)
  | vstr (s : String)
  | vlist (xs : List Value)
  | vtuple (xs : List Value)
  | vset (xs : List Value)
  | vdict (dk : DK) (es : List (Value × Value))
  | vdataclass (cls : String) (fs : List (String × Value))
  | vmodel (decl : List (String × Option String × Option Value))
      (privNames : List String) (vals : List (String × Value))
      (fieldsSet : List String) (privs : List (String × Value))
  | viter (xs : List Value)
  | vmock
  | vann (kind : String) (inner : Value)
  | vrevisit (inner : Value)

namespace Value

/-- `isinstance(x, revisit)`. -/
def isRevisit : Value → Bool
  | .vrevisit _ => true
  | _ => false

/-- `isinstance(x, Mock)`. -/
def isMock : Value → Bool
  | .vmock => true
  | _ => false

/-- `isinstance(x, BaseAnnotation) and not isinstance(x, revisit)`. -/
def isAnn : Value → Bool
  | .vann _ _ => true
  | _ => false

mutual

/-- Python hashability of a value.  `BaseAnnotation`s are namedtuples,
hence hashable when their payload is; containers, dataclasses and
pydantic models are unhashable; iterators hash by identity. -/
def hashable : Value → Bool
  | .vnone => true
  | .vint _ => true
  | .vstr _ => true
  | .vmock => true
  | .viter _ => true
  | .vtuple xs => hashableL xs
  | .vann _ i => hashable i
  | .vrevisit i => hashable i
  | .vlist _ => false
  | .vset _ => false
  | .vdict _ _ => false
  | .vdataclass _ _ => false
  | .vmodel _ _ _ _ _ => false

/-- All values in the list are hashable. -/
def hashableL : List Value → Bool
  | [] => true
  | x :: xs => hashable x && hashableL xs

end

mutual

/-- Structural equality of values (Python `==` on the hashable fragment,
where it is what dict/set key comparison uses). -/
def beq : Value → Value → Bool
  | .vnone, .vnone => true
  | .vint a, .vint b => a == b
  | .vstr a, .vstr b => a == b
  | .vlist a, .vlist b => beqL a b
  | .vtuple a, .vtuple b => beqL a b
  | .vset a, .vset b => beqL a b
  | .vdict dk a, .vdict dk' b => dk == dk' && beqP a b
  | .vdataclass c a, .vdataclass c' b => c == c' && beqF a b
  | .vmodel d pn v fs pv, .vmodel d' pn' v' fs' pv' =>
    beqD d d' && pn == pn' && beqF v v' && fs == fs' && beqF pv pv'
  | .viter a, .viter b => beqL a b
  | .vmock, .vmock => true
  | .vann k a, .vann k' b => k == k' && beq a b
  | .vrevisit a, .vrevisit b => beq a b
  | _, _ => false

/-- Pointwise equality of value lists. -/
def beqL : List Value → List Value → Bool
  | [], [] => true
  | a :: as', b :: bs => beq a b && beqL as' bs
  | _, _ => false

/-- Pointwise equality of pair lists. -/
def beqP : List (Value × Value) → List (Value × Value) → Bool
  | [], [] => true
  | (k, v) :: as', (k', v') :: bs => beq k k' && beq v v' && beqP as' bs
  | _, _ => false

/-- Pointwise equality of string-keyed field lists. -/
def beqF : List (String × Value) → List (String × Value) → Bool
  | [], [] => true
  | (k, v) :: as', (k', v') :: bs => k == k' && beq v v' && beqF as' bs
  | _, _ => false

/-- Pointwise equality of model field declarations. -/
def beqD : List (String × Option String × Option Value) →
    List (String × Option String × Option Value) → Bool
  | [], [] => true
  | (n, al, df) :: as', (n', al', df') :: bs =>
    n == n' && al == al' && beqO df df' && beqD as' bs
  | _, _ => false

/-- Equality of optional values. -/
def beqO : Option Value → Option Value → Bool
  | none, none => true
  | some a, some b => beq a b
  | _, _ => false

end

/-- Membership by `Value.beq` (Python `in` for sets, up to hashing). -/
def beqMem (x : Value) : List Value → Bool
  | [] => false
  | y :: ys => beq x y || beqMem x ys

end Value

/-- Assoc-list lookup with string keys (Python attribute/dict access on
string-keyed structures such as model fields). -/
def lookupF : List (String × Value) → String → Option Value
  | [], _ => none
  | (k, v) :: rest, n => if k = n then some v else lookupF rest n

/-- `dict.__setitem__` semantics on an assoc list: replace in place if the
key exists (keeping the position and the original key object), else
append. -/
def setPair : List (Value × Value) → Value → Value → List (Value × Value)
  | [], k, v => [(k, v)]
  | (k', v') :: rest, k, v =>
    if Value.beq k' k then (k', v) :: rest else (k', v') :: setPair rest k v

/-- Left-to-right construction of a `dict` from a pair list (`typ(items)`),
raising `TypeError` on the first unhashable key. -/
def mkDictGo : List (Value × Value) → List (Value × Value) →
    Except VErr (List (Value × Value))
  | acc, [] => .ok acc
  | acc, (k, v) :: rest =>
    if k.hashable then mkDictGo (setPair acc k v) rest
    else .error (.exc (.typeError "unhashable type"))

/-- `typ(items)` for `typ ∈ {dict, OrderedDict}`. -/
def mkDict (dk : DK) (es : List (Value × Value)) : Except VErr Value :=
  (mkDictGo [] es).map (Value.vdict dk)

/-- `set(items)`: dedups keeping the first occurrence, raising `TypeError`
on the first unhashable element. -/
def mkSetGo : List Value → List Value → Except VErr (List Value)
  | acc, [] => .ok acc
  | acc, x :: rest =>
    if x.hashable then
      mkSetGo (if Value.beqMem x acc then acc else acc ++ [x]) rest
    else .error (.exc (.typeError "unhashable type"))

/-- `set(items)`. -/
def mkSet (es : List Value) : Except VErr Value :=
  (mkSetGo [] es).map Value.vset

/-- `expr.__fields_set__.union(expr.__fields__)`: the explicitly-set field
names followed by the declared names not already present.  (CPython's set
union order is unspecified; any fixed order is a faithful refinement and
no claim depends on it.) -/
def modelFields (fieldsSet : List String) (declNames : List String) :
    List String :=
  fieldsSet ++ declNames.filter (fun n => ¬ n ∈ fieldsSet)

/-- `aliases.get(key) or key`: the registered alias when one exists and is
truthy, else the field name itself. -/
def aliasKey (n : String) : Option String → String
  | some a => if a = "" then n else a
  | none => n

/-- Look up a field's declaration entry by name. -/
def declLookup : List (String × Option String × Option Value) → String →
    Option (Option String × Option Value)
  | [], _ => none
  | d :: rest, n => if d.1 = n then some d.2 else declLookup rest n

/-- The alias-or-name used as construction keyword for field `n`. -/
def aliasKeyFor (decl : List (String × Option String × Option Value))
    (n : String) : String :=
  match declLookup decl n with
  | some (al, _) => aliasKey n al
  | none => n

/-- `getattr(expr, key)` over an instance's field values. -/
def getattrF (vals : List (String × Value)) (k : String) : Value :=
  (lookupF vals k).getD .vnone

/-- The keyword dictionary `{aliases.get(key) or key: value for key, value
in zip(model_fields, items)}`. -/
def modelKwargs (decl : List (String × Option String × Option Value))
    (mf : List String) (items : List Value) : List (String × Value) :=
  (mf.zip items).map (fun p => (aliasKeyFor decl p.1, p.2))

/-- pydantic model construction `typ(**kwargs)`: each declared field is
populated from the kwarg named by its alias (or name when no alias),
falling back to its default; a missing required field raises a
validation error.  `__fields_set__` of the new instance is the set of
fields that were populated from kwargs; private attributes start from
class-level state (empty here, immediately overwritten by
`visit_collection`). -/
def buildVals (kwargs : List (String × Value)) :
    List (String × Option String × Option Value) →
    Except VErr (List (String × Value) × List String)
  | [] => .ok ([], [])
  | (n, al, df) :: rest =>
    match lookupF kwargs (aliasKey n al), df with
    | some v, _ =>
      (buildVals kwargs rest).map (fun p => ((n, v) :: p.1, n :: p.2))
    | none, some d =>
      (buildVals kwargs rest).map (fun p => ((n, d) :: p.1, p.2))
    | none, none => .error (.exc (.validationError n))

/-- `typ(**kwargs)` for a pydantic model class. -/
def mkModel (decl : List (String × Option String × Option Value))
    (privNames : List String) (kwargs : List (String × Value)) :
    Except VErr Value :=
  (buildVals kwargs decl).map
    (fun p => Value.vmodel decl privNames p.1 p.2 [])

/-- The loop `for attr in expr.__private_attributes__:
object.__setattr__(model_instance, attr, getattr(expr, attr))`. -/
def withPrivs (m : Value) (privNames : List String)
    (privs : List (String × Value)) : Value :=
  match m with
  | .vmodel decl pn vals fs _ =>
    .vmodel decl pn vals fs
      (privNames.map (fun a => (a, (lookupF privs a).getD .vnone)))
  | x => x

section VisitEngine

variable {C S : Type}

/-- `[visit_nested(o) for o in expr]`, generic in the child visitor `g`
(a partially applied recursive call): each child receives a copy of the
context, so its context mutations are discarded; the closure state is
threaded left to right. -/
def visitSeq (g : Value → Option C → S → Except VErr (Value × Option C × S)) :
    List Value → Option C → S → Except VErr (List Value × S)
  | [], _, s => .ok ([], s)
  | x :: xs, ctx, s =>
    match g x ctx s with
    | .error e => .error e
    | .ok (v, _, s1) =>
      match visitSeq g xs ctx s1 with
      | .error e => .error e
      | .ok (vs, s2) => .ok (v :: vs, s2)

/-- `[(visit_nested(k), visit_nested(v)) for k, v in expr.items()]`,
generic in the child visitor. -/
def visitItems (g : Value → Option C → S → Except VErr (Value × Option C × S)) :
    List (Value × Value) → Option C → S →
    Except VErr (List (Value × Value) × S)
  | [], _, s => .ok ([], s)
  | (k, v) :: es, ctx, s =>
    match g k ctx s with
    | .error e => .error e
    | .ok (k', _, s1) =>
      match g v ctx s1 with
      | .error e => .error e
      | .ok (v', _, s2) =>
        match visitItems g es ctx s2 with
        | .error e => .error e
        | .ok (ps, s3) => .ok ((k', v') :: ps, s3)

variable (f : Value → Option C → S → Value × Option C × S) (rd : Bool)

/-- Shallow embedding of `visit_collection(expr, visit_fn, return_data,
max_depth, context)`.

`f` is the visit function (it receives the node, the context dict it may
mutate, and its own closure state), `rd` is `return_data`, `md` is
`max_depth`.  The result carries the returned value (`Value.vnone` for
Python's `None`), the final contents of the context dict the caller
passed in, and the visit function's closure state. -/
def visitC : Nat → Int → Value → Option C → S →
    Except VErr (Value × Option C × S)
  | 0, _, _, _, _ => .error .fuel
  | fuel + 1, md, expr, ctx, s =>
    match f expr ctx s with
    | (r, ctx1, s1) =>
      -- `if return_data or isinstance(result, revisit): expr = result`
      let expr1 := if rd || r.isRevisit then r else expr
      -- `if max_depth == 0: return result if return_data else None`
      if md = 0 then .ok ((if rd then r else .vnone), ctx1, s1)
      else
        match expr1 with
        | .vmock => .ok (.vmock, ctx1, s1)
        | .vlist xs =>
          match visitSeq (visitC fuel (md - 1)) xs ctx1 s1 with
          | .error e => .error e
          | .ok (vs, s2) =>
            .ok ((if rd then .vlist vs else .vnone), ctx1, s2)
        | .vtuple xs =>
          match visitSeq (visitC fuel (md - 1)) xs ctx1 s1 with
          | .error e => .error e
          | .ok (vs, s2) =>
            .ok ((if rd then .vtuple vs else .vnone), ctx1, s2)
        | .viter xs =>
          -- `typ = list if isinstance(expr, IteratorABC) else type(expr)`
          match visitSeq (visitC fuel (md - 1)) xs ctx1 s1 with
          | .error e => .error e
          | .ok (vs, s2) =>
            .ok ((if rd then .vlist vs else .vnone), ctx1, s2)
        | .vset xs =>
          match visitSeq (visitC fuel (md - 1)) xs ctx1 s1 with
          | .error e => .error e
          | .ok (vs, s2) =>
            if rd then
              match mkSet vs with
              | .error e => .error e
              | .ok v => .ok (v, ctx1, s2)
            else .ok (.vnone, ctx1, s2)
        | .vdict dk es =>
          match visitItems (visitC fuel (md - 1)) es ctx1 s1 with
          | .error e => .error e
          | .ok (ps, s2) =>
            if rd then
              match mkDict dk ps with
              | .error e => .error e
              | .ok v => .ok (v, ctx1, s2)
            else .ok (.vnone, ctx1, s2)
        | .vdataclass cls fs =>
          match visitSeq (visitC fuel (md - 1)) (fs.map (fun p => p.2)) ctx1 s1 with
          | .error e => .error e
          | .ok (vs, s2) =>
            .ok ((if rd then .vdataclass cls ((fs.map (fun p => p.1)).zip vs)
                  else .vnone), ctx1, s2)
        | .vmodel decl privN vals fset privs =>
          let mf := modelFields fset (decl.map (fun d => d.1))
          match visitSeq (visitC fuel (md - 1)) (mf.map (getattrF vals)) ctx1 s1 with
          | .error e => .error e
          | .ok (items, s2) =>
            if rd then
              match mkModel decl privN (modelKwargs decl mf items) with
              | .error e => .error e
              | .ok m => .ok (withPrivs m privN privs, ctx1, s2)
            else .ok (.vnone, ctx1, s2)
        | .vrevisit inner =>
          -- `revisit` is not rewrapped: the recursive result stands in
          match visitC fuel (md - 1) inner ctx1 s1 with
          | .error e => .error e
          | .ok (v, _, s2) => .ok (v, ctx1, s2)
        | .vann k inner =>
          match visitC fuel (md - 1) inner ctx1 s1 with
          | .error e => .error e
          | .ok (v, _, s2) => .ok (.vann k v, ctx1, s2)
        | _ => .ok ((if rd then r else .vnone), ctx1, s1)

end VisitEngine

/-- The body of `visit_collection` after basis selection (source lines
284-350): the dispatch on the chosen basis `basis`, with the child
visitor `g` standing for the partially applied recursive call
`visit_nested` and `r` the transform result (used only by the final
`result if return_data else None` branch).  It repeats `visitC`'s
dispatch branch for branch so that theorems can name which node the
dispatch runs on. -/
def visitBody {C S : Type} (rd : Bool)
    (g : Value → Option C → S → Except VErr (Value × Option C × S))
    (basis r : Value) (ctx1 : Option C) (s1 : S) :
    Except VErr (Value × Option C × S) :=
  match basis with
  | .vmock => .ok (.vmock, ctx1, s1)
  | .vlist xs =>
    match visitSeq g xs ctx1 s1 with
    | .error e => .error e
    | .ok (vs, s2) => .ok ((if rd then .vlist vs else .vnone), ctx1, s2)
  | .vtuple xs =>
    match visitSeq g xs ctx1 s1 with
    | .error e => .error e
    | .ok (vs, s2) => .ok ((if rd then .vtuple vs else .vnone), ctx1, s2)
  | .viter xs =>
    match visitSeq g xs ctx1 s1 with
    | .error e => .error e
    | .ok (vs, s2) => .ok ((if rd then .vlist vs else .vnone), ctx1, s2)
  | .vset xs =>
    match visitSeq g xs ctx1 s1 with
    | .error e => .error e
    | .ok (vs, s2) =>
      if rd then
        match mkSet vs with
        | .error e => .error e
        | .ok v => .ok (v, ctx1, s2)
      else .ok (.vnone, ctx1, s2)
  | .vdict dk es =>
    match visitItems g es ctx1 s1 with
    | .error e => .error e
    | .ok (ps, s2) =>
      if rd then
        match mkDict dk ps with
        | .error e => .error e
        | .ok v => .ok (v, ctx1, s2)
      else .ok (.vnone, ctx1, s2)
  | .vdataclass cls fs =>
    match visitSeq g (fs.map (fun p => p.2)) ctx1 s1 with
    | .error e => .error e
    | .ok (vs, s2) =>
      .ok ((if rd then .vdataclass cls ((fs.map (fun p => p.1)).zip vs)
            else .vnone), ctx1, s2)
  | .vmodel decl privN vals fset privs =>
    let mf := modelFields fset (decl.map (fun d => d.1))
    match visitSeq g (mf.map (getattrF vals)) ctx1 s1 with
    | .error e => .error e
    | .ok (items, s2) =>
      if rd then
        match mkModel decl privN (modelKwargs decl mf items) with
        | .error e => .error e
        | .ok m => .ok (withPrivs m privN privs, ctx1, s2)
      else .ok (.vnone, ctx1, s2)
  | .vrevisit inner =>
    match g inner ctx1 s1 with
    | .error e => .error e
    | .ok (v, _, s2) => .ok (v, ctx1, s2)
  | .vann k inner =>
    match g inner ctx1 s1 with
    | .error e => .error e
    | .ok (v, _, s2) => .ok (.vann k v, ctx1, s2)
  | _ => .ok ((if rd then r else .vnone), ctx1, s1)

/-- The identity visit function (`lambda x, *a: x`). -/
def idF {C S : Type} : Value → Option C → S → Value × Option C × S :=
  fun v c s => (v, c, s)

/-- Identity on values, recording every node passed to the visit function
in order. -/
def logF {C : Type} :
    Value → Option C → List Value → Value × Option C × List Value :=
  fun v c l => (v, c, l ++ [v])

/-- The context dict used by the branch-isolation claim: `{count: n}`. -/
abbrev Ctx1 := List (String × Int)

/-- `context["count"]`. -/
def ctxGet : Ctx1 → Int
  | [] => 0
  | (k, n) :: rest => if k = "count" then n else ctxGet rest

/-- `context["count"] += 1`, mutating the dict in place. -/
def ctxBump : Ctx1 → Ctx1
  | [] => []
  | (k, n) :: rest =>
    if k = "count" then (k, n + 1) :: rest else (k, n) :: ctxBump rest

/-- The claim C1 transform: increments `context.count` and records the
observed (pre-increment) value. -/
def countF : Value → Option Ctx1 → List Int → Value × Option Ctx1 × List Int
  | v, some m, l => (v, some (ctxBump m), l ++ [ctxGet m])
  | v, none, l => (v, none, l)

/-- C4's `addMarker` payload: visibly marks strings and ints, leaves
containers alone (so the traversal structure is unchanged). -/
def addMark : Value → Value
  | .vstr s => .vstr (s ++ "!")
  | .vint n => .vint (n + 1)
  | v => v

/-- `addMarker` as a visit function, recording every node it is applied
to. -/
def markF {C : Type} :
    Value → Option C → List Value → Value × Option C × List Value :=
  fun v c l => (addMark v, c, l ++ [v])

/-- A visit function that replaces the leaf `5` by `revisit(7)` and is the
identity elsewhere, recording every node it is applied to (used to probe
the basis-replacement rule). -/
def rv5F {C : Type} :
    Value → Option C → List Value → Value × Option C × List Value
  | .vint 5, c, l => (.vrevisit (.vint 7), c, l ++ [.vint 5])
  | v, c, l => (v, c, l ++ [v])

/-- A visit function that replaces the string key `"k"` by an (unhashable)
empty list and is the identity elsewhere. -/
def unhashF {C S : Type} : Value → Option C → S → Value × Option C × S
  | .vstr "k", c, s => (.vlist [], c, s)
  | v, c, s => (v, c, s)

/-- A transform adding 1 to every integer leaf. -/
def add1F {C S : Type} : Value → Option C → S → Value × Option C × S
  | .vint n, c, s => (.vint (n + 1), c, s)
  | v, c, s => (v, c, s)

/-!
## Nested-mapping linearizer (`dict_to_flatdict` / `flatdict_to_dict`)

`NV` is the universe of nested mappings these functions operate on:
string-keyed mappings tagged with their concrete subtype, with opaque
leaves modelled by integers (the functions inspect values only through
`isinstance(v, dict)`).  A flattened dict is its subtype tag together
with its items, a list of (path, value) pairs.
-/

/-- A nested-mapping value: an opaque leaf or a `dict`/`OrderedDict`. -/
inductive NV where
  | leaf (n : Int)
  | nd (dk : DK) (es : List (String × NV))

/-- Assoc lookup on nested-mapping entries. -/
def lookupS : List (String × NV) → String → Option NV
  | [], _ => none
  | (k, v) :: rest, n => if k = n then some v else lookupS rest n

/-- `d[k] = v` on an assoc list: replace in place, else append. -/
def setF : List (String × NV) → String → NV → List (String × NV)
  | [], k, v => [(k, v)]
  | (k', v') :: rest, k, v =>
    if k' = k then (k', v) :: rest else (k', v') :: setF rest k v

/-- The item list built by `dict_to_flatdict`: for each `(k, v)`, recurse
when `v` is a non-empty dict, otherwise emit `(parent + (k,), v)`. -/
def flatItems (parent : List String) : List (String × NV) →
    List (List String × NV)
  | [] => []
  | (k, v) :: rest =>
    (match v with
     | NV.nd _ (e :: es) => flatItems (parent ++ [k]) (e :: es)
     | _ => [(parent ++ [k], v)]) ++ flatItems parent rest

/-- `dict_to_flatdict(dct)`: the result is `type(dct)(items)`, i.e. the
input's concrete subtype applied to the flattened items. -/
def dict_to_flatdict (dk : DK) (es : List (String × NV)) :
    DK × List (List String × NV) :=
  (dk, flatItems [] es)

/-- `key_tuple[:-1]` and `key_tuple[-1]`; `none` on an empty tuple (where
Python raises `IndexError`). -/
def splitLast : List String → Option (List String × String)
  | [] => none
  | [x] => some ([], x)
  | x :: y :: rest => (splitLast (y :: rest)).map (fun p => (x :: p.1, p.2))

/-- The `for prefix_key in key_tuple[:-1]: current_dict =
current_dict.setdefault(prefix_key, typ())` walk followed by
`current_dict[key_tuple[-1]] = value`.  Intermediate dicts are created
with the flat dict's subtype `dk0`; `none` models the `TypeError` Python
raises when an existing intermediate value is not a dict. -/
def insNested (dk0 : DK) : List (String × NV) → List String → String → NV →
    Option (List (String × NV))
  | m, [], last, v => some (setF m last v)
  | m, p :: ps, last, v =>
    match lookupS m p with
    | some (NV.nd dk inner) =>
      (insNested dk0 inner ps last v).map (fun inner' => setF m p (NV.nd dk inner'))
    | some _ => none
    | none =>
      (insNested dk0 [] ps last v).map (fun inner' => setF m p (NV.nd dk0 inner'))

/-- The item loop of `flatdict_to_dict` over the flat items. -/
def f2dGo (dk0 : DK) : List (String × NV) → List (List String × NV) →
    Option (List (String × NV))
  | m, [] => some m
  | m, (path, v) :: rest =>
    match splitLast path with
    | none => none
    | some (pre, last) =>
      match insNested dk0 m pre last v with
      | none => none
      | some m' => f2dGo dk0 m' rest

/-- `flatdict_to_dict(dct)`: rebuilds a nested mapping of the flat dict's
concrete subtype. -/
def flatdict_to_dict (dk0 : DK) (flat : List (List String × NV)) : Option NV :=
  (f2dGo dk0 [] flat).map (NV.nd dk0)

/-!
## `batched_iterable`
-/

/-- The `while True: batch = tuple(islice(it, size)); if not batch: break;
yield batch` loop, for a non-negative size. -/
def batchLoop {T : Type} (size : Nat) : List T → List (List T)
  | [] => []
  | x :: xs =>
    if _h : size = 0 then []
    else (x :: xs).take size :: batchLoop size ((x :: xs).drop size)
termination_by l => l.length
decreasing_by
  simp [List.length_drop]
  omega

/-- `batched_iterable(iterable, size)`, run to completion: for a negative
size the first `islice` call raises `ValueError`; otherwise the batches
are produced. -/
def batched_iterable {T : Type} (l : List T) (size : Int) :
    Except PyExc (List (List T)) :=
  if size < 0 then
    .error (.valueError "Stop argument for islice() must be None or an integer")
  else .ok (batchLoop size.toNat l)

/-!
## Well-formedness, normalization

`Good` carves out the `Value`s that denote real Python objects reachable
as inputs of the identity-transform claim: set elements and dict keys
are hashable and pairwise distinct (as real Python sets/dicts guarantee),
a model instance's stored values line up with its declaration, its
explicitly-set fields are declared, its construction keywords do not
collide, and no iterators or `revisit` wrappers occur (the claim's
builders do not include them).

`normV` erases the one piece of bookkeeping Python's `==` ignores and
`visit_collection` rebuilds differently: a model's `__fields_set__`.
-/

/-- No existing key of the assoc list is `==` to `k` (the orientation
`setPair` tests). -/
def freshKey (k : Value) : List (Value × Value) → Bool
  | [] => true
  | (k', _) :: rest => (!Value.beq k' k) && freshKey k rest

/-- Keys are pairwise distinct: each entry's key is fresh with respect to
the preceding entries. -/
def nodupKeysGo : List (Value × Value) → List (Value × Value) → Bool
  | _, [] => true
  | seen, (k, v) :: rest => freshKey k seen && nodupKeysGo (seen ++ [(k, v)]) rest

/-- Elements are pairwise distinct in the orientation `mkSetGo` tests:
each element is not `beq`-member of the preceding prefix. -/
def nodupValsGo : List Value → List Value → Bool
  | _, [] => true
  | seen, x :: rest => (!Value.beqMem x seen) && nodupValsGo (seen ++ [x]) rest

/-- String list without duplicates. -/
def nodupStr : List String → Bool
  | [] => true
  | x :: xs => (!xs.contains x) && nodupStr xs

mutual

/-- Well-formed denotation of a Python object for the identity claim. -/
def Good : Value → Bool
  | .vnone => true
  | .vint _ => true
  | .vstr _ => true
  | .vmock => true
  | .vlist xs => GoodL xs
  | .vtuple xs => GoodL xs
  | .vset xs => Value.hashableL xs && nodupValsGo [] xs && GoodL xs
  | .vdict _ es =>
    Value.hashableL (es.map Prod.fst) && nodupKeysGo [] es && GoodP es
  | .vdataclass _ fs => nodupStr (fs.map Prod.fst) && GoodF fs
  | .vmodel decl privN vals fset privs =>
    nodupStr (decl.map Prod.fst)
    && decide (vals.map Prod.fst = decl.map Prod.fst)
    && fset.all (fun n => (decl.map Prod.fst).contains n)
    && nodupStr fset
    && nodupStr ((modelFields fset (decl.map Prod.fst)).map (aliasKeyFor decl))
    && decide (privs.map Prod.fst = privN)
    && nodupStr privN
    && GoodF vals && GoodF privs
  | .viter _ => false
  | .vann _ i => Good i
  | .vrevisit _ => false

/-- All elements are `Good`. -/
def GoodL : List Value → Bool
  | [] => true
  | x :: xs => Good x && GoodL xs

/-- All keys and values are `Good`. -/
def GoodP : List (Value × Value) → Bool
  | [] => true
  | (k, v) :: es => Good k && Good v && GoodP es

/-- All field values are `Good`. -/
def GoodF : List (String × Value) → Bool
  | [] => true
  | (_, v) :: fs => Good v && GoodF fs

end

mutual

/-- Erase `__fields_set__` bookkeeping everywhere (Python `==` on models
compares field values, not `__fields_set__`). -/
def normV : Value → Value
  | .vlist xs => .vlist (normL xs)
  | .vtuple xs => .vtuple (normL xs)
  | .vset xs => .vset (normL xs)
  | .viter xs => .viter (normL xs)
  | .vdict dk es => .vdict dk (normP es)
  | .vdataclass c fs => .vdataclass c (normF fs)
  | .vmodel decl pn vals _ privs => .vmodel decl pn (normF vals) [] (normF privs)
  | .vann k i => .vann k (normV i)
  | .vrevisit i => .vrevisit (normV i)
  | v => v

/-- `normV` on each element. -/
def normL : List Value → List Value
  | [] => []
  | x :: xs => normV x :: normL xs

/-- `normV` on keys and values. -/
def normP : List (Value × Value) → List (Value × Value)
  | [] => []
  | (k, v) :: es => (normV k, normV v) :: normP es

/-- `normV` on field values. -/
def normF : List (String × Value) → List (String × Value)
  | [] => []
  | (n, v) :: fs => (n, normV v) :: normF fs

end

mutual

/-- No pydantic model occurs anywhere inside the value. -/
def noModel : Value → Bool
  | .vmodel _ _ _ _ _ => false
  | .vlist xs => noModelL xs
  | .vtuple xs => noModelL xs
  | .vset xs => noModelL xs
  | .viter xs => noModelL xs
  | .vdict _ es => noModelP es
  | .vdataclass _ fs => noModelF fs
  | .vann _ i => noModel i
  | .vrevisit i => noModel i
  | _ => true

/-- No model in any element. -/
def noModelL : List Value → Bool
  | [] => true
  | x :: xs => noModel x && noModelL xs

/-- No model in any key or value. -/
def noModelP : List (Value × Value) → Bool
  | [] => true
  | (k, v) :: es => noModel k && noModel v && noModelP es

/-- No model in any field value. -/
def noModelF : List (String × Value) → Bool
  | [] => true
  | (_, v) :: fs => noModel v && noModelF fs

end

section SpecVariant

variable {C S : Type}
variable (f : Value → Option C → S → Value × Option C × S) (rd : Bool)

/-- Modelled from the spec: claim C6's traversal engine, identical to
`visitC` except that the basis-replacement rule follows the spec's words
"`if copyMode is true, OR classify(node) == ResumeSignal`, the node used
for further processing becomes `r`" — i.e. the test is on the *original
node*'s classification, where the source tests whether the transform's
*result* is a `revisit` instance.  Defined only to compare the claim's
stated rule against the code's. -/
def visitS : Nat → Int → Value → Option C → S →
    Except VErr (Value × Option C × S)
  | 0, _, _, _, _ => .error .fuel
  | fuel + 1, md, expr, ctx, s =>
    match f expr ctx s with
    | (r, ctx1, s1) =>
      let expr1 := if rd || expr.isRevisit then r else expr
      if md = 0 then .ok ((if rd then r else .vnone), ctx1, s1)
      else
        match expr1 with
        | .vmock => .ok (.vmock, ctx1, s1)
        | .vlist xs =>
          match visitSeq (visitS fuel (md - 1)) xs ctx1 s1 with
          | .error e => .error e
          | .ok (vs, s2) =>
            .ok ((if rd then .vlist vs else .vnone), ctx1, s2)
        | .vtuple xs =>
          match visitSeq (visitS fuel (md - 1)) xs ctx1 s1 with
          | .error e => .error e
          | .ok (vs, s2) =>
            .ok ((if rd then .vtuple vs else .vnone), ctx1, s2)
        | .viter xs =>
          match visitSeq (visitS fuel (md - 1)) xs ctx1 s1 with
          | .error e => .error e
          | .ok (vs, s2) =>
            .ok ((if rd then .vlist vs else .vnone), ctx1, s2)
        | .vset xs =>
          match visitSeq (visitS fuel (md - 1)) xs ctx1 s1 with
          | .error e => .error e
          | .ok (vs, s2) =>
            if rd then
              match mkSet vs with
              | .error e => .error e
              | .ok v => .ok (v, ctx1, s2)
            else .ok (.vnone, ctx1, s2)
        | .vdict dk es =>
          match visitItems (visitS fuel (md - 1)) es ctx1 s1 with
          | .error e => .error e
          | .ok (ps, s2) =>
            if rd then
              match mkDict dk ps with
              | .error e => .error e
              | .ok v => .ok (v, ctx1, s2)
            else .ok (.vnone, ctx1, s2)
        | .vdataclass cls fs =>
          match visitSeq (visitS fuel (md - 1)) (fs.map (fun p => p.2)) ctx1 s1 with
          | .error e => .error e
          | .ok (vs, s2) =>
            .ok ((if rd then .vdataclass cls ((fs.map (fun p => p.1)).zip vs)
                  else .vnone), ctx1, s2)
        | .vmodel decl privN vals fset privs =>
          let mf := modelFields fset (decl.map (fun d => d.1))
          match visitSeq (visitS fuel (md - 1)) (mf.map (getattrF vals)) ctx1 s1 with
          | .error e => .error e
          | .ok (items, s2) =>
            if rd then
              match mkModel decl privN (modelKwargs decl mf items) with
              | .error e => .error e
              | .ok m => .ok (withPrivs m privN privs, ctx1, s2)
            else .ok (.vnone, ctx1, s2)
        | .vrevisit inner =>
          match visitS fuel (md - 1) inner ctx1 s1 with
          | .error e => .error e
          | .ok (v, _, s2) => .ok (v, ctx1, s2)
        | .vann k inner =>
          match visitS fuel (md - 1) inner ctx1 s1 with
          | .error e => .error e
          | .ok (v, _, s2) => .ok (.vann k v, ctx1, s2)
        | _ => .ok ((if rd then r else .vnone), ctx1, s1)

end SpecVariant

mutual

/-- A nested mapping with pairwise-distinct keys at every level and no
*empty* mapping stored as a value — the domain of the round-trip claim. -/
def wfNE : List (String × NV) → Bool
  | [] => true
  | (k, v) :: rest => (!(rest.map Prod.fst).contains k) && wfNEv v && wfNE rest

/-- A well-formed value: a leaf, or a *non-empty* well-formed mapping. -/
def wfNEv : NV → Bool
  | .leaf _ => true
  | .nd _ [] => false
  | .nd _ (e :: es) => wfNE (e :: es)

end

mutual

/-- Replace the mapping subtype of every non-empty mapping inside by
`dk0` (what `flatdict_to_dict` does to inner mappings, which all get
built as the flat dict's subtype). -/
def stripV (dk0 : DK) : NV → NV
  | .leaf n => .leaf n
  | .nd dk [] => .nd dk []
  | .nd _ (e :: es) => .nd dk0 (stripEs dk0 (e :: es))

/-- `stripV` on each entry's value. -/
def stripEs (dk0 : DK) : List (String × NV) → List (String × NV)
  | [] => []
  | (k, v) :: rest => (k, stripV dk0 v) :: stripEs dk0 rest

end

mutual

/-- Equality of nested mappings ignoring the concrete mapping subtype
tags (but respecting entry order) — a sound strengthening of Python
`==`, which compares `dict` and `OrderedDict` contents regardless of
each other's type. -/
def eqIK : NV → NV → Bool
  | .leaf a, .leaf b => a == b
  | .nd _ es, .nd _ fs => eqIKes es fs
  | _, _ => false

/-- Pointwise `eqIK` on entries. -/
def eqIKes : List (String × NV) → List (String × NV) → Bool
  | [], [] => true
  | (k, v) :: es, (k', v') :: fs => k == k' && eqIK v v' && eqIKes es fs
  | _, _ => false

end

/-!
## Claim C1: context branch isolation
-/

/-- C1 counterexample: with `context = {count: 0}` and a transform that
increments `context.count` and records the observed value, visiting
`[leafA, leafB]` has each *leaf* observe `count == 1` (the recorded
observations are `[0, 1, 1]`: the root list observes 0 and increments the
caller's dict before the children's contexts are forked), and the
caller's context after the call is `{count: 1}`, not `{count: 0}`. -/
theorem c1_counterexample :
    visitC countF false 9 (-1) (.vlist [.vstr "leafA", .vstr "leafB"])
      (some [("count", 0)]) [] = .ok (.vnone, some [("count", 1)], [0, 1, 1])
    ∧ ([0, 1, 1] : List Int) ≠ [0, 0, 0]
    ∧ (some [("count", (1 : Int))]) ≠ (some [("count", (0 : Int))]) :=
  ⟨rfl, by decide, by decide⟩

/-- C1 amended: visiting `[leafA, leafB]` with `context = {count: 0}` and
an increment-and-record transform, each leaf observes `count == 1` — the
root node's transform call increments the caller's mapping in place
before the children's contexts are forked — and siblings do not see each
other's increments (in the second run, `leafB` still observes 1 even
though the sibling subtree incremented its own fork to 2); after `visit`
returns, the caller's context equals `{count: 1}`. -/
theorem c1_amended :
    visitC countF false 9 (-1) (.vlist [.vstr "leafA", .vstr "leafB"])
      (some [("count", 0)]) [] = .ok (.vnone, some [("count", 1)], [0, 1, 1])
    ∧ visitC countF false 9 (-1)
      (.vlist [.vlist [.vstr "leafA"], .vstr "leafB"])
      (some [("count", 0)]) [] = .ok (.vnone, some [("count", 1)], [0, 1, 2, 1]) :=
  ⟨rfl, rfl⟩

/-!
## Claim C5: observe-only mode
-/

/-- C5 counterexample: in observe-only mode a `Mock` root is returned
unchanged (not `None`), and a tagged-wrapper root is returned rewrapped
around the observe-result of its payload (`quote(None)`), not `None`. -/
theorem c5_counterexample :
    visitC (idF (C := Unit) (S := Unit)) false 5 (-1) .vmock none ()
      = .ok (.vmock, none, ())
    ∧ Value.vmock ≠ Value.vnone
    ∧ visitC (idF (C := Unit) (S := Unit)) false 5 (-1)
        (.vann "quote" (.vint 1)) none ()
      = .ok (.vann "quote" .vnone, none, ())
    ∧ Value.vann "quote" .vnone ≠ Value.vnone :=
  ⟨rfl, fun h => Value.noConfusion h, rfl, fun h => Value.noConfusion h⟩

/-- C5 amended: `visit_collection(root, fn, return_data=False)` returns
`None` whenever the basis node is not a `Mock`, not an annotation
wrapper, and not a `revisit` (a `Mock` basis is returned unchanged and an
annotation basis is returned rewrapped, per `c5_counterexample`). -/
theorem c5_amended : ∀ (C S : Type)
    (f : Value → Option C → S → Value × Option C × S)
    (fuel : Nat) (md : Int) (root : Value) (ctx : Option C) (s : S)
    (out : Value × Option C × S),
    root.isMock = false → root.isAnn = false → root.isRevisit = false →
    ((f root ctx s).1).isRevisit = false →
    visitC f false fuel md root ctx s = .ok out → out.1 = .vnone := by
  intro C S f fuel md root ctx s out hm ha hr hfr h
  cases fuel with
  | zero => simp [visitC] at h
  | succ n =>
    rcases hfe : f root ctx s with ⟨r, ctx1, s1⟩
    rw [hfe] at hfr
    simp only at hfr
    rw [visitC, hfe] at h
    simp only [hfr, Bool.false_or, Bool.or_false] at h
    by_cases hmd : md = 0
    · rw [if_pos hmd] at h
      simp only [Bool.false_eq_true, if_false] at h
      cases h
      rfl
    · rw [if_neg hmd] at h
      cases root with
      | vmock => simp [Value.isMock] at hm
      | vann k i => simp [Value.isAnn] at ha
      | vrevisit i => simp [Value.isRevisit] at hr
      | vnone => simp only [Bool.false_eq_true, if_false] at h; cases h; rfl
      | vint m => simp only [Bool.false_eq_true, if_false] at h; cases h; rfl
      | vstr t => simp only [Bool.false_eq_true, if_false] at h; cases h; rfl
      | vlist xs =>
        simp only [Bool.false_eq_true, if_false] at h
        split at h <;> cases h <;> rfl
      | vtuple xs =>
        simp only [Bool.false_eq_true, if_false] at h
        split at h <;> cases h <;> rfl
      | vset xs =>
        simp only [Bool.false_eq_true, if_false] at h
        split at h <;> cases h <;> rfl
      | viter xs =>
        simp only [Bool.false_eq_true, if_false] at h
        split at h <;> cases h <;> rfl
      | vdict dk es =>
        simp only [Bool.false_eq_true, if_false] at h
        split at h <;> cases h <;> rfl
      | vdataclass cls fs =>
        simp only [Bool.false_eq_true, if_false] at h
        split at h <;> cases h <;> rfl
      | vmodel decl pn vals fs pv =>
        simp only [Bool.false_eq_true, if_false] at h
        split at h <;> cases h <;> rfl

/-- Witness for `c5_amended` at a concrete leaf root. -/
theorem c5_amended_witness :
    ((Value.vnone, (none : Option Unit), ())).1 = Value.vnone := by
  refine c5_amended Unit Unit idF 3 (-1) (Value.vint 3) none ()
    (Value.vnone, none, ()) rfl rfl rfl rfl ?_
  rfl

/-!
## Claim C6: basis replacement and `revisit` handling
-/

/-- Unconditional factorization of a `visitC` step (recursion not cut
off) through basis selection and the dispatch body: the basis is the
transform result exactly when `return_data` is set or that result is a
`revisit`, else the original node. -/
theorem visitC_body {C S : Type}
    (f : Value → Option C → S → Value × Option C × S) (rd : Bool)
    (fuel : Nat) (md : Int) (x r : Value) (ctx c1 : Option C) (s s1 : S)
    (hf : f x ctx s = (r, c1, s1)) (hmd : md ≠ 0) :
    visitC f rd (fuel + 1) md x ctx s
      = visitBody rd (visitC f rd fuel (md - 1))
          (if rd || r.isRevisit then r else x) r c1 s1 := by
  rw [visitC, hf]
  simp only [if_neg hmd]
  rcases hsel : rd || r.isRevisit with _ | _
  · simp only [Bool.false_eq_true, if_false]
    cases x <;> rfl
  · simp only [if_true]
    cases r <;> rfl

/-- C6 counterexample: the basis-replacement test is on the transform's
*result*, not on the original node's classification.  With a transform
returning `revisit(7)` for the non-`ResumeSignal` leaf `5` in observe
mode, the code replaces the basis and recurses into `7` (the log shows
both `5` and `7` visited), while an engine following the claim's rule
(`visitS`) retains the original leaf and never visits `7`. -/
theorem c6_counterexample :
    visitC (rv5F (C := Unit)) false 9 (-1) (.vint 5) none []
      = .ok (.vnone, none, [.vint 5, .vint 7])
    ∧ visitS (rv5F (C := Unit)) false 9 (-1) (.vint 5) none []
      = .ok (.vnone, none, [.vint 5])
    ∧ ([Value.vint 5, Value.vint 7] : List Value) ≠ [Value.vint 5] :=
  ⟨rfl, rfl, by intro h; injection h with h1 h2; exact List.noConfusion h2⟩

/-- C6 amended: with `r = transformFn(node)` and recursion not cut off,
(1) the node used as the basis for descent becomes `r` exactly when
`copyMode` is true or `r` itself classifies as a `ResumeSignal`, and
(2) otherwise — observe mode, non-`ResumeSignal` result — the original
node is retained as the basis and the result is discarded for descent
(the dispatch does not depend on it, whatever the node); (3) a basis
that classifies as a `ResumeSignal` is always recursed into, regardless
of `copyMode`, and its recursive result stands in for it directly,
never rewrapped, which instantiates to (4) an original `revisit` node
whose transform result is not a `revisit` in observe mode and (5) a
transform result that is a `revisit`, in either mode. -/
theorem c6_amended :
    (∀ (C S : Type) (f : Value → Option C → S → Value × Option C × S)
       (rd : Bool) (fuel : Nat) (md : Int) (x r : Value)
       (ctx c1 : Option C) (s s1 : S),
       f x ctx s = (r, c1, s1) → md ≠ 0 →
       rd = true ∨ r.isRevisit = true →
       visitC f rd (fuel + 1) md x ctx s
         = visitBody rd (visitC f rd fuel (md - 1)) r r c1 s1)
    ∧ (∀ (C S : Type) (f : Value → Option C → S → Value × Option C × S)
       (fuel : Nat) (md : Int) (x r : Value) (ctx c1 : Option C) (s s1 : S),
       f x ctx s = (r, c1, s1) → r.isRevisit = false → md ≠ 0 →
       ∀ r' : Value,
       visitC f false (fuel + 1) md x ctx s
         = visitBody false (visitC f false fuel (md - 1)) x r' c1 s1)
    ∧ (∀ (C S : Type)
       (g : Value → Option C → S → Except VErr (Value × Option C × S))
       (rd : Bool) (inner r : Value) (c1 : Option C) (s1 : S),
       visitBody rd g (.vrevisit inner) r c1 s1
         = (g inner c1 s1).map (fun t => (t.1, c1, t.2.2)))
    ∧ (∀ (C S : Type) (f : Value → Option C → S → Value × Option C × S)
       (fuel : Nat) (md : Int) (inner r : Value) (ctx c1 : Option C)
       (s s1 : S),
       f (.vrevisit inner) ctx s = (r, c1, s1) → r.isRevisit = false →
       md ≠ 0 →
       visitC f false (fuel + 1) md (.vrevisit inner) ctx s
         = (visitC f false fuel (md - 1) inner c1 s1).map
             (fun t => (t.1, c1, t.2.2)))
    ∧ (∀ (C S : Type) (f : Value → Option C → S → Value × Option C × S)
       (rd : Bool) (fuel : Nat) (md : Int) (x y : Value) (ctx c1 : Option C)
       (s s1 : S),
       f x ctx s = (.vrevisit y, c1, s1) → md ≠ 0 →
       visitC f rd (fuel + 1) md x ctx s
         = (visitC f rd fuel (md - 1) y c1 s1).map
             (fun t => (t.1, c1, t.2.2))) := by
  refine ⟨?_, ?_, ?_, ?_, ?_⟩
  · intro C S f rd fuel md x r ctx c1 s s1 hf hmd hcond
    rw [visitC_body f rd fuel md x r ctx c1 s s1 hf hmd]
    have hsel : (rd || r.isRevisit) = true := by
      rcases hcond with h | h <;> simp [h]
    simp only [hsel, if_true]
  · intro C S f fuel md x r ctx c1 s s1 hf hr hmd r'
    rw [visitC_body f false fuel md x r ctx c1 s s1 hf hmd]
    simp only [hr, Bool.false_or, Bool.false_eq_true, if_false]
    cases x <;> rfl
  · intro C S g rd inner r c1 s1
    rcases hg : g inner c1 s1 with e | ⟨v, c2, s2⟩ <;>
      simp [visitBody, hg, Except.map]
  · intro C S f fuel md inner r ctx c1 s s1 hf hr hmd
    rw [visitC_body f false fuel md (.vrevisit inner) r ctx c1 s s1 hf hmd]
    simp only [hr, Bool.false_or, Bool.false_eq_true, if_false]
    rcases hg : visitC f false fuel (md - 1) inner c1 s1 with e | ⟨v, c2, s2⟩ <;>
      simp [visitBody, hg, Except.map]
  · intro C S f rd fuel md x y ctx c1 s s1 hf hmd
    rw [visitC_body f rd fuel md x (.vrevisit y) ctx c1 s s1 hf hmd]
    simp only [Value.isRevisit, Bool.or_true, if_true]
    rcases hg : visitC f rd fuel (md - 1) y c1 s1 with e | ⟨v, c2, s2⟩ <;>
      simp [visitBody, hg, Except.map]

/-- Witness for `c6_amended` at concrete inputs: copy-mode replacement
at a container result, observe-mode retention of a container basis (with
an arbitrary discarded result), descent through an original `revisit`
basis whose transform result is not a `revisit`, and descent through a
`revisit` transform result. -/
theorem c6_amended_witness :
    (visitC (fun (_ : Value) (c : Option Unit) (s : Unit) =>
          (Value.vlist [Value.vint 1], c, s)) true 3 (-1)
        (Value.vint 0) none ()
      = visitBody true
          (visitC (fun (_ : Value) (c : Option Unit) (s : Unit) =>
            (Value.vlist [Value.vint 1], c, s)) true 2 (-2))
          (Value.vlist [Value.vint 1]) (Value.vlist [Value.vint 1]) none ())
    ∧ (visitC (fun (_ : Value) (c : Option Unit) (s : Unit) =>
          (Value.vint 9, c, s)) false 3 (-1)
        (Value.vlist [Value.vint 5]) none ()
      = visitBody false
          (visitC (fun (_ : Value) (c : Option Unit) (s : Unit) =>
            (Value.vint 9, c, s)) false 2 (-2))
          (Value.vlist [Value.vint 5]) (Value.vstr "z") none ())
    ∧ (visitC (fun (_ : Value) (c : Option Unit) (s : Unit) =>
          (Value.vint 3, c, s)) false 3 (-1)
        (Value.vrevisit (Value.vint 7)) none ()
      = (visitC (fun (_ : Value) (c : Option Unit) (s : Unit) =>
            (Value.vint 3, c, s)) false 2 (-2) (Value.vint 7) none ()).map
          (fun (t : Value × Option Unit × Unit) => (t.1, none, t.2.2)))
    ∧ (visitC (rv5F (C := Unit)) false 3 (-1) (Value.vint 5) none []
      = (visitC (rv5F (C := Unit)) false 2 (-2) (Value.vint 7) none
            [Value.vint 5]).map
          (fun (t : Value × Option Unit × List Value) =>
            (t.1, none, t.2.2))) := by
  refine ⟨?_, ?_, ?_, ?_⟩
  · exact c6_amended.1 Unit Unit _ true 2 (-1) (Value.vint 0)
      (Value.vlist [Value.vint 1]) none none () () rfl (by decide)
      (Or.inl rfl)
  · exact c6_amended.2.1 Unit Unit _ 2 (-1) (Value.vlist [Value.vint 5])
      (Value.vint 9) none none () () rfl rfl (by decide) (Value.vstr "z")
  · exact c6_amended.2.2.2.1 Unit Unit _ 2 (-1) (Value.vint 7)
      (Value.vint 3) none none () () rfl rfl (by decide)
  · exact c6_amended.2.2.2.2 Unit (List Value) (rv5F (C := Unit)) false 2 (-1)
      (Value.vint 5) (Value.vint 7) none none [] [Value.vint 5] rfl
      (by decide)

/-!
## Claim C7: traversal failure semantics
-/

/-- C7 counterexample: when reconstruction of a visited dict fails (the
transform turned the key `"k"` into an unhashable list), the traversal
raises the underlying `TypeError`, which is not a `TraversalError` and
carries no path information. -/
theorem c7_counterexample :
    visitC (unhashF (C := Unit) (S := Unit)) true 9 (-1)
      (.vdict .plain [(.vstr "k", .vint 1)]) none ()
      = .error (.exc (.typeError "unhashable type"))
    ∧ (PyExc.typeError "unhashable type").isTraversal = false := by
  constructor
  · simp [visitC, visitSeq, visitItems, unhashF, mkDict, mkDictGo,
      Value.hashable, Value.hashableL, Except.map]
  · rfl

/-- C7 amended: a failed reconstruction (e.g. a transformed dict key that
is unhashable) aborts the whole traversal — the same underlying
exception surfaces unchanged from a nested occurrence, and no partial
result is returned in copy mode — but the exception is the constructor's
own (`TypeError`), not a `TraversalError`, and carries no path from the
root. -/
theorem c7_amended :
    visitC (unhashF (C := Unit) (S := Unit)) true 9 (-1)
      (.vdict .plain [(.vstr "outer", .vdict .plain [(.vstr "k", .vint 1)])]) none ()
      = .error (.exc (.typeError "unhashable type"))
    ∧ visitC (unhashF (C := Unit) (S := Unit)) false 9 (-1)
      (.vdict .plain [(.vstr "k", .vint 1)]) none ()
      = .ok (.vnone, none, ())
    ∧ (PyExc.typeError "unhashable type").isTraversal = false := by
  refine ⟨?_, ?_, rfl⟩
  · simp [visitC, visitSeq, visitItems, unhashF, mkDict, mkDictGo,
      Value.hashable, Value.hashableL, Except.map]
  · rfl

/-!
## Claim C9: tracked-record reconstruction
-/

/-- C9: visiting the tracked record `{x: 1 (explicit, alias "X"),
y: 2 (default), _z = 99}` in copy mode with an add-1-to-integers
transform: the traversed field set is the union of explicitly-set and
declared fields (`["x", "y"]`), the construction keywords use the alias
`"X"` for `x` and the plain name for `y`, and the new instance has
`x = 2`, `y = 3` and the private `_z = 99` copied over. -/
theorem c9_tracked_record :
    modelFields ["x"] ["x", "y"] = ["x", "y"]
    ∧ modelKwargs [("x", some "X", none), ("y", none, some (.vint 2))]
        ["x", "y"] [.vint 2, .vint 3] = [("X", .vint 2), ("y", .vint 3)]
    ∧ visitC (add1F (C := Unit) (S := Unit)) true 9 (-1)
        (.vmodel [("x", some "X", none), ("y", none, some (.vint 2))] ["_z"]
          [("x", .vint 1), ("y", .vint 2)] ["x"] [("_z", .vint 99)]) none ()
      = .ok (.vmodel [("x", some "X", none), ("y", none, some (.vint 2))] ["_z"]
          [("x", .vint 2), ("y", .vint 3)] ["x", "y"] [("_z", .vint 99)], none, ()) :=
  ⟨rfl, rfl, rfl⟩

/-!
## Claim C10: iterators are classified as lists
-/

/-- C10: an iterator basis is traversed exactly as the corresponding
plain list (general part, identity transform, any depth budget that does
not stop at the node); concretely, in copy mode the returned node is a
plain `list` of the transformed elements (the iterator type is not
preserved), and in observe mode the elements are still all consumed and
visited. -/
theorem c10_iterator_as_list :
    (∀ (C S : Type) (fuel : Nat) (md : Int) (xs : List Value)
       (ctx : Option C) (s : S) (rd : Bool), md ≠ 0 →
       visitC idF rd fuel md (.viter xs) ctx s
         = visitC idF rd fuel md (.vlist xs) ctx s)
    ∧ visitC (logF (C := Unit)) true 9 (-1) (.viter [.vint 1, .vstr "a"]) none []
      = .ok (.vlist [.vint 1, .vstr "a"], none,
          [.viter [.vint 1, .vstr "a"], .vint 1, .vstr "a"])
    ∧ visitC (logF (C := Unit)) false 9 (-1) (.viter [.vint 1, .vstr "a"]) none []
      = .ok (.vnone, none, [.viter [.vint 1, .vstr "a"], .vint 1, .vstr "a"]) := by
  refine ⟨?_, rfl, rfl⟩
  intro C S fuel md xs ctx s rd hmd
  cases fuel with
  | zero => rfl
  | succ n =>
    rw [visitC, visitC]
    simp only [idF, Value.isRevisit, Bool.or_false, ite_self, if_neg hmd]

/-- Witness for `c10_iterator_as_list` at a concrete depth and list. -/
theorem c10_witness :
    visitC idF false 3 (-1) (.viter [Value.vint 1]) (none : Option Unit) ()
      = visitC idF false 3 (-1) (.vlist [Value.vint 1]) none () :=
  c10_iterator_as_list.1 Unit Unit 3 (-1) [Value.vint 1] none () false (by decide)

/-!
## Claim C4: depth bounding
-/

/-- Congruence for `visitSeq` in the child visitor. -/
theorem visitSeq_congr {C S : Type}
    {g g' : Value → Option C → S → Except VErr (Value × Option C × S)}
    (h : ∀ x ctx s, g x ctx s = g' x ctx s) :
    ∀ (xs : List Value) (ctx : Option C) (s : S),
    visitSeq g xs ctx s = visitSeq g' xs ctx s := by
  intro xs
  induction xs with
  | nil => intro ctx s; rfl
  | cons x xs IH => intro ctx s; simp only [visitSeq, h, IH]

/-- Congruence for `visitItems` in the child visitor. -/
theorem visitItems_congr {C S : Type}
    {g g' : Value → Option C → S → Except VErr (Value × Option C × S)}
    (h : ∀ x ctx s, g x ctx s = g' x ctx s) :
    ∀ (es : List (Value × Value)) (ctx : Option C) (s : S),
    visitItems g es ctx s = visitItems g' es ctx s := by
  intro es
  induction es with
  | nil => intro ctx s; rfl
  | cons e es IH =>
    rcases e with ⟨k, v⟩
    intro ctx s
    simp only [visitItems, h, IH]

/-- Any two negative depth budgets drive `visit_collection` identically:
the only uses of `max_depth` are the `== 0` test and the `- 1` passed to
children, and a negative budget stays negative. -/
theorem visitC_negEq {C S : Type}
    (f : Value → Option C → S → Value × Option C × S) (rd : Bool) :
    ∀ (fuel : Nat) (md1 md2 : Int), md1 < 0 → md2 < 0 →
    ∀ (x : Value) (ctx : Option C) (s : S),
    visitC f rd fuel md1 x ctx s = visitC f rd fuel md2 x ctx s := by
  intro fuel
  induction fuel with
  | zero => intro md1 md2 h1 h2 x ctx s; rfl
  | succ n IH =>
    intro md1 md2 h1 h2 x ctx s
    have hcg : ∀ (y : Value) (ctx' : Option C) (s' : S),
        visitC f rd n (md1 - 1) y ctx' s' = visitC f rd n (md2 - 1) y ctx' s' :=
      fun y ctx' s' => IH (md1 - 1) (md2 - 1) (by omega) (by omega) y ctx' s'
    rw [visitC, visitC]
    rcases hfe : f x ctx s with ⟨r, ctx1, s1⟩
    simp only [if_neg (by omega : ¬ md1 = 0), if_neg (by omega : ¬ md2 = 0)]
    cases hb : (if rd || r.isRevisit then r else x) <;>
      simp only [visitSeq_congr hcg, visitItems_congr hcg, hcg]

/-- The nested dict `{a: {b: {c: 1}}}` of the depth-bounding claim. -/
def c4root : Value :=
  .vdict .plain
    [(.vstr "a", .vdict .plain [(.vstr "b", .vdict .plain [(.vstr "c", .vint 1)])])]

/-- C4: the depth budget is unlimited when negative (any two negative
budgets are interchangeable, and `maxDepth = -1` transforms every level
of the example); it is decremented by exactly 1 per level (`maxDepth = 1`
reaches exactly one level below the root and `maxDepth = 2` exactly
two); and at budget 0 the node is still passed to the transform but no
children are visited.  In particular
`visit({a: {b: {c: 1}}}, addMarker, copyMode=true, maxDepth=1)` applies
the transform at depths 0 and 1 only (the log records the root, the key
`"a"` and the value `{b: {c: 1}}`) and leaves `{c: 1}` structurally
untouched. -/
theorem c4_depth :
    (∀ (C S : Type) (f : Value → Option C → S → Value × Option C × S)
       (rd : Bool) (fuel : Nat) (md1 md2 : Int), md1 < 0 → md2 < 0 →
       ∀ (x : Value) (ctx : Option C) (s : S),
       visitC f rd fuel md1 x ctx s = visitC f rd fuel md2 x ctx s)
    ∧ visitC (markF (C := Unit)) true 9 0 (.vstr "a") none []
      = .ok (.vstr "a!", none, [.vstr "a"])
    ∧ visitC (markF (C := Unit)) true 9 1 c4root none []
      = .ok (.vdict .plain
          [(.vstr "a!", .vdict .plain [(.vstr "b", .vdict .plain [(.vstr "c", .vint 1)])])],
          none,
          [c4root, .vstr "a", .vdict .plain [(.vstr "b", .vdict .plain [(.vstr "c", .vint 1)])]])
    ∧ visitC (markF (C := Unit)) true 9 2 c4root none []
      = .ok (.vdict .plain
          [(.vstr "a!", .vdict .plain [(.vstr "b!", .vdict .plain [(.vstr "c", .vint 1)])])],
          none,
          [c4root, .vstr "a", .vdict .plain [(.vstr "b", .vdict .plain [(.vstr "c", .vint 1)])],
           .vstr "b", .vdict .plain [(.vstr "c", .vint 1)]])
    ∧ visitC (markF (C := Unit)) true 9 (-1) c4root none []
      = .ok (.vdict .plain
          [(.vstr "a!", .vdict .plain [(.vstr "b!", .vdict .plain [(.vstr "c!", .vint 2)])])],
          none,
          [c4root, .vstr "a", .vdict .plain [(.vstr "b", .vdict .plain [(.vstr "c", .vint 1)])],
           .vstr "b", .vdict .plain [(.vstr "c", .vint 1)], .vstr "c", .vint 1]) := by
  refine ⟨fun C S f rd fuel md1 md2 h1 h2 => visitC_negEq f rd fuel md1 md2 h1 h2,
    rfl, ?_, ?_, ?_⟩ <;>
    simp [visitC, visitSeq, visitItems, markF, addMark, mkDict, mkDictGo, mkSet,
      mkSetGo, Value.hashable, Value.hashableL, Value.beq, Value.beqL,
      Value.beqMem, setPair, Except.map, c4root]

/-- Witness for `c4_depth` at two concrete negative budgets. -/
theorem c4_depth_witness :
    visitC (markF (C := Unit)) true 4 (-1) (.vint 0) none []
      = visitC (markF (C := Unit)) true 4 (-2) (.vint 0) none [] :=
  c4_depth.1 Unit (List Value) markF true 4 (-1) (-2) (by decide) (by decide)
    (.vint 0) none []

/-!
## Claim C8: batching
-/

/-- With a positive batch size, concatenating the batches restores the
input (bounded induction on the list length). -/
theorem batchLoop_join_aux {T : Type} (size : Nat) (hs : 0 < size) :
    ∀ (n : Nat) (l : List T), l.length ≤ n → (batchLoop size l).flatten = l := by
  intro n
  induction n with
  | zero =>
    intro l hl
    cases l with
    | nil => simp [batchLoop]
    | cons a as => simp at hl
  | succ n IH =>
    intro l hl
    cases l with
    | nil => simp [batchLoop]
    | cons x xs =>
      simp only [batchLoop]
      rw [dif_neg (by omega)]
      rw [List.flatten_cons,
        IH ((x :: xs).drop size) (by simp at hl ⊢; omega),
        List.take_append_drop]

/-- Every batch is non-empty and no longer than the batch size. -/
theorem batchLoop_mem_aux {T : Type} (size : Nat) :
    ∀ (n : Nat) (l : List T) (b : List T), l.length ≤ n →
    b ∈ batchLoop size l → b ≠ [] ∧ b.length ≤ size := by
  intro n
  induction n with
  | zero =>
    intro l b hl hb
    cases l with
    | nil => simp [batchLoop] at hb
    | cons a as => simp at hl
  | succ n IH =>
    intro l b hl hb
    cases l with
    | nil => simp [batchLoop] at hb
    | cons x xs =>
      simp only [batchLoop] at hb
      by_cases h0 : size = 0
      · rw [dif_pos h0] at hb; simp at hb
      · rw [dif_neg h0] at hb
        rcases List.mem_cons.mp hb with hb | hb
        · subst hb
          constructor
          · cases size with
            | zero => omega
            | succ m => simp [List.take_cons]
          · simp [List.length_take]
        · exact IH ((x :: xs).drop size) b
            (by simp at hl ⊢; omega) hb

/-- Every batch except possibly the last has length exactly the batch
size. -/
theorem batchLoop_dropLast_aux {T : Type} (size : Nat) :
    ∀ (n : Nat) (l : List T) (b : List T), l.length ≤ n →
    b ∈ (batchLoop size l).dropLast → b.length = size := by
  intro n
  induction n with
  | zero =>
    intro l b hl hb
    cases l with
    | nil => simp [batchLoop] at hb
    | cons a as => simp at hl
  | succ n IH =>
    intro l b hl hb
    cases l with
    | nil => simp [batchLoop] at hb
    | cons x xs =>
      simp only [batchLoop] at hb
      by_cases h0 : size = 0
      · rw [dif_pos h0] at hb; simp at hb
      · rw [dif_neg h0] at hb
        cases hrest : batchLoop size ((x :: xs).drop size) with
        | nil => rw [hrest] at hb; simp at hb
        | cons r rs =>
          rw [hrest, List.dropLast_cons₂] at hb
          rcases List.mem_cons.mp hb with hb | hb
          · subst hb
            have hne : (x :: xs).drop size ≠ [] := by
              intro hd
              rw [hd] at hrest
              simp [batchLoop] at hrest
            have hlen : size < (x :: xs).length := by
              by_contra hc
              exact hne (List.drop_eq_nil_of_le (by omega))
            simp only [List.length_take, List.length_cons] at hlen ⊢
            omega
          · rw [← hrest] at hb
            exact IH ((x :: xs).drop size) b
              (by simp at hl ⊢; omega) hb

/-- C8 counterexample: `batched_iterable([1], 0)` completes without any
error and yields nothing (`.ok []`), so size 0 does not fail; a negative
size fails, but with `islice`'s `ValueError`. -/
theorem c8_counterexample :
    batched_iterable ([1] : List Int) 0 = .ok []
    ∧ batched_iterable ([1] : List Int) (-1)
      = .error (.valueError "Stop argument for islice() must be None or an integer") := by
  constructor
  · simp [batched_iterable, batchLoop]
  · rfl

/-- C8 amended: a negative size raises `ValueError` (when the generator
is first drawn); size 0 silently yields no batches; for positive size
the batches are consecutive, their concatenation is the input, every
batch is non-empty and at most `size` long, every batch except possibly
the last is exactly `size` long, and
`batch([1,2,3,4,5], 2) = [(1,2), (3,4), (5,)]`. -/
theorem c8_amended :
    (∀ (T : Type) (l : List T) (size : Int), size < 0 →
       batched_iterable l size
         = .error (.valueError "Stop argument for islice() must be None or an integer"))
    ∧ (∀ (T : Type) (l : List T), batched_iterable l 0 = .ok [])
    ∧ batched_iterable ([1, 2, 3, 4, 5] : List Int) 2 = .ok [[1, 2], [3, 4], [5]]
    ∧ (∀ (T : Type) (size : Nat) (l : List T), 0 < size →
       (batchLoop size l).flatten = l)
    ∧ (∀ (T : Type) (size : Nat) (l : List T) (b : List T),
       b ∈ batchLoop size l → b ≠ [] ∧ b.length ≤ size)
    ∧ (∀ (T : Type) (size : Nat) (l : List T) (b : List T),
       b ∈ (batchLoop size l).dropLast → b.length = size) := by
  refine ⟨?_, ?_, ?_, ?_, ?_, ?_⟩
  · intro T l size hneg
    simp [batched_iterable, hneg]
  · intro T l
    cases l <;> simp [batched_iterable, batchLoop]
  · simp [batched_iterable, batchLoop]
  · intro T size l hs
    exact batchLoop_join_aux size hs l.length l (le_refl _)
  · intro T size l b hb
    exact batchLoop_mem_aux size l.length l b (le_refl _) hb
  · intro T size l b hb
    exact batchLoop_dropLast_aux size l.length l b (le_refl _) hb

/-- Witness for `c8_amended` at concrete inputs. -/
theorem c8_amended_witness :
    batched_iterable ([7] : List Int) (-2)
      = .error (.valueError "Stop argument for islice() must be None or an integer")
    ∧ (batchLoop 2 ([9, 9, 9] : List Int)).flatten = [9, 9, 9] :=
  ⟨c8_amended.1 Int [7] (-2) (by decide),
   c8_amended.2.2.2.1 Int 2 [9, 9, 9] (by decide)⟩

/-!
## Claim C3: flatten/unflatten round trip
-/

/-- Setting a fresh key appends. -/
theorem setF_fresh : ∀ (m : List (String × NV)) (k : String) (v : NV),
    lookupS m k = none → setF m k v = m ++ [(k, v)] := by
  intro m
  induction m with
  | nil => intro k v h; rfl
  | cons e rest IH =>
    rcases e with ⟨k', v'⟩
    intro k v h
    by_cases hk : k' = k
    · simp [lookupS, hk] at h
    · simp only [lookupS, if_neg hk] at h
      simp [setF, hk, IH k v h]

/-- Looking up the key just set. -/
theorem lookupS_setF_self : ∀ (m : List (String × NV)) (k : String) (v : NV),
    lookupS (setF m k v) k = some v := by
  intro m
  induction m with
  | nil => intro k v; simp [setF, lookupS]
  | cons e rest IH =>
    rcases e with ⟨k', v'⟩
    intro k v
    by_cases hk : k' = k
    · simp [setF, hk, lookupS]
    · simp [setF, hk, lookupS, IH]

/-- Setting a key twice keeps the second value. -/
theorem setF_setF : ∀ (m : List (String × NV)) (k : String) (x y : NV),
    setF (setF m k x) k y = setF m k y := by
  intro m
  induction m with
  | nil => intro k x y; simp [setF]
  | cons e rest IH =>
    rcases e with ⟨k', v'⟩
    intro k x y
    by_cases hk : k' = k
    · simp [setF, hk]
    · simp [setF, hk, IH]

/-- Re-setting a key to its current value is the identity. -/
theorem setF_self : ∀ (m : List (String × NV)) (k : String) (x : NV),
    lookupS m k = some x → setF m k x = m := by
  intro m
  induction m with
  | nil => intro k x h; simp [lookupS] at h
  | cons e rest IH =>
    rcases e with ⟨k', v'⟩
    intro k x h
    by_cases hk : k' = k
    · rw [lookupS, if_pos hk] at h
      cases h
      simp [setF, hk]
    · rw [lookupS, if_neg hk] at h
      simp [setF, hk, IH _ _ h]

/-- Lookup after appending a single fresh binding. -/
theorem lookupS_append_single :
    ∀ (m : List (String × NV)) (k p : String) (x : NV), lookupS m p = none →
    lookupS (m ++ [(k, x)]) p = if k = p then some x else none := by
  intro m
  induction m with
  | nil => intro k p x h; simp [lookupS]
  | cons e rest IH =>
    rcases e with ⟨k', v'⟩
    intro k p x h
    rw [lookupS] at h
    by_cases hk : k' = p
    · rw [if_pos hk] at h; exact absurd h (by simp)
    · rw [if_neg hk] at h
      simpa [lookupS, hk] using IH k p x h

/-- `splitLast` on a cons of a non-empty tail. -/
theorem splitLast_cons : ∀ (p : List String) (k : String), p ≠ [] →
    splitLast (k :: p) = (splitLast p).map (fun q => (k :: q.1, q.2)) := by
  intro p k h
  cases p with
  | nil => exact absurd rfl h
  | cons y rest => rfl

/-- A non-empty path splits. -/
theorem splitLast_isSome : ∀ (p : List String), p ≠ [] →
    ∃ q a, splitLast p = some (q, a) := by
  intro p
  induction p with
  | nil => intro h; exact absurd rfl h
  | cons x rest IH =>
    intro _
    cases rest with
    | nil => exact ⟨[], x, rfl⟩
    | cons y t =>
      rcases IH (by simp) with ⟨q, a, hq⟩
      exact ⟨x :: q, a, by rw [splitLast_cons (y :: t) x (by simp), hq]; rfl⟩

/-- `flatItems` under a parent prefix is the prefix mapped over the
parent-free items. -/
theorem flatItems_parent : ∀ (n : Nat) (es : List (String × NV)), sizeOf es ≤ n →
    ∀ (parent : List String),
    flatItems parent es = (flatItems [] es).map (fun it => (parent ++ it.1, it.2)) := by
  intro n
  induction n with
  | zero => intro es h; exact absurd h (by cases es <;> simp_arith)
  | succ n IH =>
    intro es h parent
    cases es with
    | nil => simp [flatItems]
    | cons e rest =>
      rcases e with ⟨k, v⟩
      have hrest : sizeOf rest ≤ n := by
        simp_arith at h
        omega
      cases v with
      | leaf m => simp [flatItems, IH rest hrest parent]
      | nd dk inner =>
        cases inner with
        | nil => simp [flatItems, IH rest hrest parent]
        | cons i it =>
          have hin : sizeOf (i :: it) ≤ n := by
            simp_arith at h ⊢
            omega
          simp only [flatItems, List.nil_append]
          rw [IH (i :: it) hin (parent ++ [k]), IH (i :: it) hin [k],
            IH rest hrest parent]
          simp [List.map_map, Function.comp, List.map_append, List.append_assoc]

/-- Flattening a non-empty mapping yields at least one item. -/
theorem flatItems_ne_nil : ∀ (n : Nat) (es : List (String × NV)), sizeOf es ≤ n →
    ∀ (parent : List String), es ≠ [] → flatItems parent es ≠ [] := by
  intro n
  induction n with
  | zero => intro es h; exact absurd h (by cases es <;> simp_arith)
  | succ n IH =>
    intro es h parent hne
    cases es with
    | nil => exact absurd rfl hne
    | cons e rest =>
      rcases e with ⟨k, v⟩
      cases v with
      | leaf m => simp [flatItems]
      | nd dk inner =>
        cases inner with
        | nil => simp [flatItems]
        | cons i it =>
          have hin : sizeOf (i :: it) ≤ n := by
            simp_arith at h ⊢
            omega
          simp only [flatItems]
          intro hc
          exact IH (i :: it) hin (parent ++ [k]) (by simp)
            (List.append_eq_nil.mp hc).1

/-- Every item of a parent-free flattening has a non-empty path. -/
theorem flatItems_paths : ∀ (n : Nat) (es : List (String × NV)), sizeOf es ≤ n →
    ∀ it, it ∈ flatItems [] es → it.1 ≠ [] := by
  intro n
  induction n with
  | zero => intro es h; exact absurd h (by cases es <;> simp_arith)
  | succ n IH =>
    intro es h it hit
    cases es with
    | nil => simp [flatItems] at hit
    | cons e rest =>
      rcases e with ⟨k, v⟩
      have hrest : sizeOf rest ≤ n := by
        simp_arith at h
        omega
      cases v with
      | leaf m =>
        simp only [flatItems, List.nil_append, List.singleton_append,
          List.mem_cons] at hit
        rcases hit with hit | hit
        · subst hit; simp
        · exact IH rest hrest it hit
      | nd dk inner =>
        cases inner with
        | nil =>
          simp only [flatItems, List.nil_append, List.singleton_append,
            List.mem_cons] at hit
          rcases hit with hit | hit
          · subst hit; simp
          · exact IH rest hrest it hit
        | cons i itl =>
          have hin : sizeOf (i :: itl) ≤ n := by
            simp_arith at h ⊢
            omega
          simp only [flatItems, List.nil_append, List.mem_append] at hit
          rcases hit with hit | hit
          · rw [flatItems_parent (sizeOf (i :: itl)) (i :: itl) (le_refl _) [k]]
              at hit
            rcases List.mem_map.mp hit with ⟨it0, _, hit0⟩
            subst hit0
            simp
          · exact IH rest hrest it hit

/-- `f2dGo` over an appended item list. -/
theorem f2dGo_append (dk0 : DK) :
    ∀ (xs ys : List (List String × NV)) (m : List (String × NV)),
    f2dGo dk0 m (xs ++ ys)
      = match f2dGo dk0 m xs with
        | none => none
        | some m' => f2dGo dk0 m' ys := by
  intro xs
  induction xs with
  | nil => intro ys m; rfl
  | cons x xs IH =>
    rcases x with ⟨path, v⟩
    intro ys m
    simp only [List.cons_append, f2dGo]
    cases splitLast path with
    | none => rfl
    | some pl =>
      rcases pl with ⟨pre, last⟩
      simp only
      cases insNested dk0 m pre last v with
      | none => rfl
      | some m' => exact IH ys m'

/-- Inserting a block of items whose paths share the head key `k`, when
`k` already maps to a dict: the insertions all land inside that slot. -/
theorem f2dGo_block (dk0 : DK) :
    ∀ (L : List (List String × NV)) (m : List (String × NV)) (k : String)
      (dk : DK) (s : List (String × NV)),
    (∀ it ∈ L, it.1 ≠ []) → lookupS m k = some (NV.nd dk s) →
    f2dGo dk0 m (L.map (fun it => (k :: it.1, it.2)))
      = (f2dGo dk0 s L).map (fun s' => setF m k (NV.nd dk s')) := by
  intro L
  induction L with
  | nil =>
    intro m k dk s hp hl
    simp [f2dGo, setF_self m k _ hl]
  | cons it0 L IH =>
    rcases it0 with ⟨p, v⟩
    intro m k dk s hp hl
    have hpne : p ≠ [] := hp (p, v) (by simp)
    rcases splitLast_isSome p hpne with ⟨q, a, hq⟩
    simp only [List.map_cons, f2dGo, splitLast_cons p k hpne, hq, Option.map]
    simp only [insNested, hl]
    cases hins : insNested dk0 s q a v with
    | none => simp [Option.map]
    | some s1 =>
      simp only [Option.map]
      rw [IH (setF m k (NV.nd dk s1)) k dk s1
          (fun it hit => hp it (by simp [hit])) (lookupS_setF_self m k _)]
      cases f2dGo dk0 s1 L <;> simp [setF_setF]

/-- Inserting a non-empty block of items whose paths share the fresh head
key `k`: the first insertion creates the slot (with the flat dict's
subtype) and the rest land inside it. -/
theorem f2dGo_blockNew (dk0 : DK) :
    ∀ (L : List (List String × NV)) (m : List (String × NV)) (k : String),
    (∀ it ∈ L, it.1 ≠ []) → lookupS m k = none → L ≠ [] →
    f2dGo dk0 m (L.map (fun it => (k :: it.1, it.2)))
      = (f2dGo dk0 [] L).map (fun s' => setF m k (NV.nd dk0 s')) := by
  intro L
  cases L with
  | nil => intro m k _ _ hne; exact absurd rfl hne
  | cons it0 L =>
    rcases it0 with ⟨p, v⟩
    intro m k hp hl _
    have hpne : p ≠ [] := hp (p, v) (by simp)
    rcases splitLast_isSome p hpne with ⟨q, a, hq⟩
    simp only [List.map_cons, f2dGo, splitLast_cons p k hpne, hq, Option.map]
    simp only [insNested, hl]
    cases hins : insNested dk0 [] q a v with
    | none => simp [Option.map]
    | some s1 =>
      simp only [Option.map]
      rw [f2dGo_block dk0 L (setF m k (NV.nd dk0 s1)) k dk0 s1
          (fun it hit => hp it (by simp [hit])) (lookupS_setF_self m k _)]
      cases f2dGo dk0 s1 L <;> simp [setF_setF]

/-- Replaying the flattened items of a well-formed mapping into an
accumulator with fresh keys rebuilds the mapping (with inner mappings
retyped to the flat dict's subtype) appended to the accumulator. -/
theorem f2dGo_flat : ∀ (n : Nat) (es : List (String × NV)), sizeOf es ≤ n →
    ∀ (dk0 : DK) (acc : List (String × NV)),
    wfNE es = true → (∀ p ∈ es.map Prod.fst, lookupS acc p = none) →
    f2dGo dk0 acc (flatItems [] es) = some (acc ++ stripEs dk0 es) := by
  intro n
  induction n with
  | zero => intro es h; exact absurd h (by cases es <;> simp_arith)
  | succ n IH =>
    intro es h dk0 acc hwf hdis
    cases es with
    | nil => simp [flatItems, f2dGo, stripEs]
    | cons e rest =>
      rcases e with ⟨k, v⟩
      have hrest : sizeOf rest ≤ n := by
        simp_arith at h
        omega
      have hwf1 := hwf
      simp only [wfNE, Bool.and_eq_true] at hwf1
      obtain ⟨⟨hkfresh, hv⟩, hwfr⟩ := hwf1
      have hkmem : ¬ k ∈ rest.map Prod.fst := by simpa using hkfresh
      have hacck : lookupS acc k = none := hdis k (by simp)
      have hdis' : ∀ p ∈ rest.map Prod.fst,
          lookupS (acc ++ [(k, stripV dk0 v)]) p = none := by
        intro p hp
        have hne : k ≠ p := fun hkp => hkmem (hkp ▸ hp)
        rw [lookupS_append_single acc k p _ (hdis p (by simp [hp])), if_neg hne]
      cases v with
      | leaf mv =>
        simp only [flatItems, List.nil_append, List.singleton_append]
        simp only [f2dGo, splitLast, insNested, setF_fresh acc k _ hacck]
        rw [IH rest hrest dk0 (acc ++ [(k, NV.leaf mv)]) hwfr
            (by simpa [stripV] using hdis')]
        simp [stripEs, stripV]
      | nd dk inner =>
        cases inner with
        | nil => simp [wfNEv] at hv
        | cons i itl =>
          have hin : sizeOf (i :: itl) ≤ n := by
            simp_arith at h ⊢
            omega
          simp only [flatItems, List.nil_append]
          rw [flatItems_parent (sizeOf (i :: itl)) (i :: itl) (le_refl _) [k]]
          have hL : ∀ it ∈ flatItems [] (i :: itl), it.1 ≠ [] :=
            fun it hit => flatItems_paths (sizeOf (i :: itl)) (i :: itl)
              (le_refl _) it hit
          have hmap : (flatItems [] (i :: itl)).map
                (fun it => ([k] ++ it.1, it.2))
              = (flatItems [] (i :: itl)).map (fun it => (k :: it.1, it.2)) := by
            simp
          rw [hmap, f2dGo_append, f2dGo_blockNew dk0 (flatItems [] (i :: itl))
            acc k hL hacck
            (flatItems_ne_nil (sizeOf (i :: itl)) (i :: itl) (le_refl _) []
              (by simp))]
          rw [IH (i :: itl) hin dk0 [] (by simpa [wfNEv] using hv)
            (fun p _ => rfl)]
          simp only [List.nil_append, Option.map, setF_fresh acc k _ hacck]
          rw [IH rest hrest dk0 (acc ++ [(k, NV.nd dk0 (stripEs dk0 (i :: itl)))])
            hwfr (by simpa [stripV] using hdis')]
          simp [stripEs, stripV]

/-- The rebuilt entries are equal to the originals up to mapping-subtype
tags. -/
theorem eqIKes_strip : ∀ (n : Nat) (es : List (String × NV)), sizeOf es ≤ n →
    ∀ dk0, eqIKes (stripEs dk0 es) es = true := by
  intro n
  induction n with
  | zero => intro es h; exact absurd h (by cases es <;> simp_arith)
  | succ n IH =>
    intro es h dk0
    cases es with
    | nil => simp [stripEs, eqIKes]
    | cons e rest =>
      rcases e with ⟨k, v⟩
      have hrest : sizeOf rest ≤ n := by
        simp_arith at h
        omega
      have hval : eqIK (stripV dk0 v) v = true := by
        cases v with
        | leaf mv => simp [stripV, eqIK]
        | nd dk inner =>
          cases inner with
          | nil => simp [stripV, eqIK, eqIKes]
          | cons i itl =>
            have hin : sizeOf (i :: itl) ≤ n := by
              simp_arith at h ⊢
              omega
            simpa [stripV, eqIK] using IH (i :: itl) hin dk0
      simp [stripEs, eqIKes, hval, IH rest hrest dk0]

/-- C3: for a nested mapping with no empty sub-mappings (and, as for any
real Python dict, pairwise-distinct keys per level),
`flatdict_to_dict(dict_to_flatdict(x))` succeeds and returns `x` with
every inner mapping rebuilt with the flat dict's subtype — equal to `x`
under Python `==`, which ignores the `dict`/`OrderedDict` distinction
(`eqIK`); `dict_to_flatdict` returns a flat mapping of its input's
concrete subtype and `flatdict_to_dict` builds a mapping of *its*
input's concrete subtype; and an empty nested mapping value flattens to
a leaf holding that (still `OrderedDict`-typed) empty mapping rather
than being dropped. -/
theorem c3_flatten_roundtrip :
    (∀ (dk0 : DK) (es : List (String × NV)), wfNE es = true →
      flatdict_to_dict (dict_to_flatdict dk0 es).1 (dict_to_flatdict dk0 es).2
        = some (NV.nd dk0 (stripEs dk0 es))
      ∧ eqIK (NV.nd dk0 (stripEs dk0 es)) (NV.nd dk0 es) = true)
    ∧ (∀ (dk0 : DK) (es : List (String × NV)), (dict_to_flatdict dk0 es).1 = dk0)
    ∧ (∀ (dk0 : DK) (flat : List (List String × NV)) (r : NV),
        flatdict_to_dict dk0 flat = some r →
        ∃ es, r = NV.nd dk0 es)
    ∧ dict_to_flatdict .plain [("a", NV.nd .ordered [])]
      = (.plain, [(["a"], NV.nd .ordered [])]) := by
  refine ⟨?_, fun dk0 es => rfl, ?_, by simp [dict_to_flatdict, flatItems]⟩
  · intro dk0 es hwf
    constructor
    · simp only [dict_to_flatdict, flatdict_to_dict]
      rw [f2dGo_flat (sizeOf es) es (le_refl _) dk0 [] hwf (fun p _ => rfl)]
      simp
    · simpa [eqIK] using eqIKes_strip (sizeOf es) es (le_refl _) dk0
  · intro dk0 flat r h
    simp only [flatdict_to_dict] at h
    cases hg : f2dGo dk0 [] flat with
    | none => rw [hg] at h; simp at h
    | some m =>
      rw [hg] at h
      simp only [Option.map] at h
      cases h
      exact ⟨m, rfl⟩

/-- Witness for `c3_flatten_roundtrip` on the spec's example mapping. -/
theorem c3_witness :
    flatdict_to_dict .plain
      [(["a", "b"], NV.leaf 1), (["a", "c", "d"], NV.leaf 2)]
      = some (NV.nd .plain
          [("a", NV.nd .plain
            [("b", NV.leaf 1), ("c", NV.nd .plain [("d", NV.leaf 2)])])]) := by
  have hwf : wfNE [("a", NV.nd DK.plain
      [("b", NV.leaf 1), ("c", NV.nd DK.plain [("d", NV.leaf 2)])])] = true := by
    simp [wfNE, wfNEv]
  have h := (c3_flatten_roundtrip.1 DK.plain
    [("a", NV.nd DK.plain
      [("b", NV.leaf 1), ("c", NV.nd DK.plain [("d", NV.leaf 2)])])] hwf).1
  simpa [dict_to_flatdict, flatItems, stripEs, stripV] using h

/-!
## Claim C2: identity under no-op transform
-/

/-- Elements of a `GoodL` list are `Good`. -/
theorem GoodL_mem : ∀ (xs : List Value), GoodL xs = true →
    ∀ y ∈ xs, Good y = true := by
  intro xs
  induction xs with
  | nil => intro _ y hy; simp at hy
  | cons x xs IH =>
    intro h y hy
    simp only [GoodL, Bool.and_eq_true] at h
    rcases List.mem_cons.mp hy with hy | hy
    · subst hy; exact h.1
    · exact IH h.2 y hy

/-- Components of a `GoodP` pair list are `Good`. -/
theorem GoodP_mem : ∀ (es : List (Value × Value)), GoodP es = true →
    ∀ e ∈ es, Good e.1 = true ∧ Good e.2 = true := by
  intro es
  induction es with
  | nil => intro _ e he; simp at he
  | cons e0 es IH =>
    rcases e0 with ⟨k, v⟩
    intro h e he
    simp only [GoodP, Bool.and_eq_true] at h
    rcases List.mem_cons.mp he with he | he
    · subst he; exact ⟨h.1.1, h.1.2⟩
    · exact IH h.2 e he

/-- Values of a `GoodF` field list are `Good`. -/
theorem GoodF_mem : ∀ (fs : List (String × Value)), GoodF fs = true →
    ∀ e ∈ fs, Good e.2 = true := by
  intro fs
  induction fs with
  | nil => intro _ e he; simp at he
  | cons f0 fs IH =>
    rcases f0 with ⟨nn, v⟩
    intro h e he
    simp only [GoodF, Bool.and_eq_true] at h
    rcases List.mem_cons.mp he with he | he
    · subst he; exact h.1
    · exact IH h.2 e he

/-- Elements of a hashable list are hashable. -/
theorem hashableL_mem : ∀ (xs : List Value), Value.hashableL xs = true →
    ∀ y ∈ xs, y.hashable = true := by
  intro xs
  induction xs with
  | nil => intro _ y hy; simp at hy
  | cons x xs IH =>
    intro h y hy
    simp only [Value.hashableL, Bool.and_eq_true] at h
    rcases List.mem_cons.mp hy with hy | hy
    · subst hy; exact h.1
    · exact IH h.2 y hy

/-- Assemble `noModelL` from per-element facts. -/
theorem noModelL_of : ∀ (xs : List Value), (∀ y ∈ xs, noModel y = true) →
    noModelL xs = true := by
  intro xs
  induction xs with
  | nil => intro _; rfl
  | cons x xs IH =>
    intro h
    simp only [noModelL, Bool.and_eq_true]
    exact ⟨h x (by simp), IH (fun y hy => h y (by simp [hy]))⟩

/-- A hashable well-formed value contains no pydantic model. -/
theorem hashGood_noModel : ∀ (n : Nat) (v : Value), sizeOf v ≤ n →
    Good v = true → v.hashable = true → noModel v = true := by
  intro n
  induction n with
  | zero => intro v h; exact absurd h (by cases v <;> simp_arith)
  | succ n IH =>
    intro v h hg hh
    cases v with
    | vnone => rfl
    | vint m => rfl
    | vstr t => rfl
    | vmock => rfl
    | vtuple xs =>
      simp only [Value.hashable] at hh
      simp only [Good] at hg
      simp only [noModel]
      refine noModelL_of xs (fun y hy => ?_)
      have hsy : sizeOf y ≤ n := by
        have := List.sizeOf_lt_of_mem hy
        simp_arith at h
        omega
      exact IH y hsy (GoodL_mem xs hg y hy) (hashableL_mem xs hh y hy)
    | vann k i =>
      simp only [Value.hashable] at hh
      simp only [Good] at hg
      simp only [noModel]
      have hsi : sizeOf i ≤ n := by
        simp_arith at h
        omega
      exact IH i hsi hg hh
    | vrevisit i => simp [Good] at hg
    | viter xs => simp [Good] at hg
    | vlist xs => simp [Value.hashable] at hh
    | vset xs => simp [Value.hashable] at hh
    | vdict dk es => simp [Value.hashable] at hh
    | vdataclass c fs => simp [Value.hashable] at hh
    | vmodel d pn va fs pv => simp [Value.hashable] at hh

/-- Setting a key fresh for the accumulator appends. -/
theorem setPair_fresh : ∀ (acc : List (Value × Value)) (k v : Value),
    freshKey k acc = true → setPair acc k v = acc ++ [(k, v)] := by
  intro acc
  induction acc with
  | nil => intro k v _; rfl
  | cons e rest IH =>
    rcases e with ⟨k', v'⟩
    intro k v h
    simp only [freshKey, Bool.and_eq_true, Bool.not_eq_true'] at h
    simp [setPair, h.1, IH k v h.2]

/-- Building a dict from hashable, pairwise-fresh items keeps them all. -/
theorem mkDictGo_nodup : ∀ (es acc : List (Value × Value)),
    Value.hashableL (es.map Prod.fst) = true → nodupKeysGo acc es = true →
    mkDictGo acc es = .ok (acc ++ es) := by
  intro es
  induction es with
  | nil => intro acc _ _; simp [mkDictGo]
  | cons e rest IH =>
    rcases e with ⟨k, v⟩
    intro acc hh hnd
    simp only [List.map_cons, Value.hashableL, Bool.and_eq_true] at hh
    simp only [nodupKeysGo, Bool.and_eq_true] at hnd
    simp only [mkDictGo, hh.1, if_true]
    rw [setPair_fresh acc k v hnd.1, IH (acc ++ [(k, v)]) hh.2 hnd.2]
    simp

/-- Building a set from hashable, pairwise-distinct elements keeps them
all in order. -/
theorem mkSetGo_nodup : ∀ (xs acc : List Value),
    Value.hashableL xs = true → nodupValsGo acc xs = true →
    mkSetGo acc xs = .ok (acc ++ xs) := by
  intro xs
  induction xs with
  | nil => intro acc _ _; simp [mkSetGo]
  | cons x rest IH =>
    intro acc hh hnd
    simp only [Value.hashableL, Bool.and_eq_true] at hh
    simp only [nodupValsGo, Bool.and_eq_true, Bool.not_eq_true'] at hnd
    simp only [mkSetGo, hh.1, if_true, hnd.1, Bool.false_eq_true, if_false]
    rw [IH (acc ++ [x]) hh.2 hnd.2]
    simp

/-- A successful field lookup is a member. -/
theorem lookupF_mem : ∀ (vals : List (String × Value)) (n : String) (v : Value),
    lookupF vals n = some v → (n, v) ∈ vals := by
  intro vals
  induction vals with
  | nil => intro n v h; simp [lookupF] at h
  | cons e rest IH =>
    rcases e with ⟨k, w⟩
    intro n v h
    by_cases hk : k = n
    · rw [lookupF, if_pos hk] at h
      cases h
      subst hk
      simp
    · rw [lookupF, if_neg hk] at h
      simp [IH n v h]

/-- A declared key looks up successfully. -/
theorem lookupF_of_mem_keys : ∀ (vals : List (String × Value)) (n : String),
    n ∈ vals.map Prod.fst → ∃ v, lookupF vals n = some v := by
  intro vals
  induction vals with
  | nil => intro n h; simp at h
  | cons e rest IH =>
    rcases e with ⟨k, w⟩
    intro n h
    by_cases hk : k = n
    · exact ⟨w, by rw [lookupF, if_pos hk]⟩
    · simp only [List.map_cons] at h
      rcases List.mem_cons.mp h with h' | h'
      · exact absurd h'.symm hk
      · rcases IH n h' with ⟨v, hv⟩
        exact ⟨v, by rw [lookupF, if_neg hk]; exact hv⟩

/-- Rebuilding a field list from lookups of its own (distinct) keys is
the identity. -/
theorem vals_eta : ∀ (vals : List (String × Value)),
    nodupStr (vals.map Prod.fst) = true →
    (vals.map Prod.fst).map (fun nn => (nn, getattrF vals nn)) = vals := by
  intro vals
  induction vals with
  | nil => intro _; rfl
  | cons e rest IH =>
    rcases e with ⟨n0, v0⟩
    intro h
    simp only [List.map_cons, nodupStr, Bool.and_eq_true, Bool.not_eq_true'] at h
    have hn0 : ¬ n0 ∈ rest.map Prod.fst := by simpa using h.1
    simp only [List.map_cons]
    have hhead : getattrF ((n0, v0) :: rest) n0 = v0 := by simp [getattrF, lookupF]
    have hcg : (rest.map Prod.fst).map
          (fun nn => (nn, getattrF ((n0, v0) :: rest) nn))
        = (rest.map Prod.fst).map (fun nn => (nn, getattrF rest nn)) :=
      List.map_congr_left (fun nn hnn => by
        have hne : n0 ≠ nn := fun he => hn0 (he ▸ hnn)
        simp [getattrF, lookupF, hne])
    rw [hhead, hcg, IH h.2]

/-- Declaration lookup finds a member's entry when names are distinct. -/
theorem declLookup_of_mem :
    ∀ (decl : List (String × Option String × Option Value)) (n : String)
      (al : Option String) (df : Option Value),
    nodupStr (decl.map Prod.fst) = true → (n, al, df) ∈ decl →
    declLookup decl n = some (al, df) := by
  intro decl
  induction decl with
  | nil => intro n al df _ h; simp at h
  | cons d rest IH =>
    rcases d with ⟨n0, al0, df0⟩
    intro n al df hnd h
    simp only [List.map_cons, nodupStr, Bool.and_eq_true, Bool.not_eq_true'] at hnd
    have hn0 : ¬ n0 ∈ rest.map Prod.fst := by simpa using hnd.1
    rcases List.mem_cons.mp h with h' | h'
    · cases h'
      simp [declLookup]
    · have hne : n0 ≠ n := by
        intro he
        subst he
        exact hn0 (List.mem_map.mpr ⟨(n0, al, df), h', rfl⟩)
      simp only [declLookup, if_neg hne]
      exact IH n al df hnd.2 h'

/-- The construction keyword of a declared field. -/
theorem aliasKeyFor_eq :
    ∀ (decl : List (String × Option String × Option Value)) (n : String)
      (al : Option String) (df : Option Value),
    nodupStr (decl.map Prod.fst) = true → (n, al, df) ∈ decl →
    aliasKeyFor decl n = aliasKey n al := by
  intro decl n al df hnd h
  simp [aliasKeyFor, declLookup_of_mem decl n al df hnd h]

/-- Every declared name is traversed (is in the union). -/
theorem mem_modelFields : ∀ (fset dn : List String) (n : String), n ∈ dn →
    n ∈ modelFields fset dn := by
  intro fset dn n h
  by_cases hf : n ∈ fset
  · exact List.mem_append.mpr (Or.inl hf)
  · exact List.mem_append.mpr (Or.inr (List.mem_filter.mpr ⟨h, by simpa using hf⟩))

/-- Members of the union are declared names (when the explicitly-set
names are all declared). -/
theorem modelFields_sub : ∀ (fset dn : List String) (n : String),
    (∀ a ∈ fset, a ∈ dn) → n ∈ modelFields fset dn → n ∈ dn := by
  intro fset dn n hsub h
  rcases List.mem_append.mp h with h | h
  · exact hsub n h
  · exact (List.mem_filter.mp h).1

/-- Pointwise `normV`-equality from equality of normalized lists. -/
theorem faOfNormL : ∀ (xs vs : List Value), normL vs = normL xs →
    List.Forall₂ (fun x v => normV v = normV x) xs vs := by
  intro xs
  induction xs with
  | nil =>
    intro vs h
    cases vs with
    | nil => exact List.Forall₂.nil
    | cons v vs => simp [normL] at h
  | cons x xs IH =>
    intro vs h
    cases vs with
    | nil => simp [normL] at h
    | cons v vs =>
      simp only [normL, List.cons.injEq] at h
      exact List.Forall₂.cons h.1 (IH vs h.2)

/-- Looking up a zipped, key-mapped assoc list at a mapped key: when the
mapped keys are pairwise distinct, it returns the item paired with that
key. -/
theorem lookup_kwargs : ∀ (mf : List String) (items : List Value)
    (g : String → String) (P : String → Value → Prop),
    List.Forall₂ P mf items →
    nodupStr (mf.map g) = true →
    ∀ k ∈ mf, ∃ w,
      lookupF ((mf.zip items).map (fun p => (g p.1, p.2))) (g k) = some w
      ∧ P k w := by
  intro mf items g P hfa
  induction hfa with
  | nil => intro _ k hk; simp at hk
  | @cons m0 w0 mf' items' hP hfa IH =>
    intro hnd k hk
    simp only [List.map_cons, nodupStr, Bool.and_eq_true, Bool.not_eq_true'] at hnd
    rcases List.mem_cons.mp hk with hk | hk
    · subst hk
      refine ⟨w0, ?_, hP⟩
      simp [List.zip_cons_cons, lookupF]
    · have hne : g m0 ≠ g k := by
        intro he
        have hmem : g k ∈ mf'.map g := List.mem_map.mpr ⟨k, hk, rfl⟩
        rw [← he] at hmem
        have hnotin : ¬ g m0 ∈ mf'.map g := by simpa using hnd.1
        exact hnotin hmem
      rcases IH hnd.2 k hk with ⟨w, hw, hPw⟩
      refine ⟨w, ?_, hPw⟩
      simp only [List.zip_cons_cons, List.map_cons, lookupF, if_neg hne]
      exact hw

/-- `buildVals` succeeds and returns the per-declaration lookups. -/
theorem buildVals_ok : ∀ (decl' : List (String × Option String × Option Value))
    (kwargs vals : List (String × Value)),
    (∀ d ∈ decl', ∃ w, lookupF kwargs (aliasKey d.1 d.2.1) = some w
       ∧ normV w = normV (getattrF vals d.1)) →
    ∃ vals' fset', buildVals kwargs decl' = .ok (vals', fset')
      ∧ normF vals' = normF (decl'.map (fun d => (d.1, getattrF vals d.1))) := by
  intro decl'
  induction decl' with
  | nil => intro kwargs vals _; exact ⟨[], [], rfl, rfl⟩
  | cons d rest IH =>
    rcases d with ⟨n, al, df⟩
    intro kwargs vals H
    rcases H (n, al, df) (by simp) with ⟨w, hw, hnw⟩
    rcases IH kwargs vals (fun d hd => H d (by simp [hd])) with
      ⟨vals', fset', hbv, hnv⟩
    refine ⟨(n, w) :: vals', n :: fset', ?_, ?_⟩
    · simp only [buildVals, hw, hbv]
      cases df <;> rfl
    · simp only [List.map_cons, normF, hnw, hnv]

/-- Identity traversal of a child list: given the inductive hypothesis at
fuel `n`, the children come back `normV`-equal (and exactly equal when
model-free), with the closure state and context untouched. -/
theorem visitSeq_id {C S : Type} (n : Nat) (md : Int) (ctx : Option C)
    (IH : ∀ (y : Value), sizeOf y < n → Good y = true → ∀ (s : S),
      ∃ v, visitC idF true n md y ctx s = .ok (v, ctx, s)
        ∧ normV v = normV y ∧ (noModel y = true → v = y)) :
    ∀ (xs : List Value), (∀ y ∈ xs, sizeOf y < n ∧ Good y = true) → ∀ (s : S),
    ∃ vs, visitSeq (visitC idF true n md) xs ctx s = .ok (vs, s)
      ∧ normL vs = normL xs ∧ (noModelL xs = true → vs = xs)
      ∧ vs.length = xs.length := by
  intro xs
  induction xs with
  | nil => intro _ s; exact ⟨[], rfl, rfl, fun _ => rfl, rfl⟩
  | cons x xs IHl =>
    intro h s
    obtain ⟨v, hv, hnv, hev⟩ := IH x (h x (by simp)).1 (h x (by simp)).2 s
    obtain ⟨vs, hvs, hnvs, hevs, hlen⟩ := IHl (fun y hy => h y (by simp [hy])) s
    refine ⟨v :: vs, ?_, ?_, ?_, ?_⟩
    · simp only [visitSeq, hv, hvs]
    · simp [normL, hnv, hnvs]
    · intro hnm
      simp only [noModelL, Bool.and_eq_true] at hnm
      rw [hev hnm.1, hevs hnm.2]
    · simp [hlen]

/-- Identity traversal of dict items: keys and values come back
`normV`-equal; the keys come back exactly equal when model-free, and the
whole item list when everything is model-free. -/
theorem visitItems_id {C S : Type} (n : Nat) (md : Int) (ctx : Option C)
    (IH : ∀ (y : Value), sizeOf y < n → Good y = true → ∀ (s : S),
      ∃ v, visitC idF true n md y ctx s = .ok (v, ctx, s)
        ∧ normV v = normV y ∧ (noModel y = true → v = y)) :
    ∀ (es : List (Value × Value)),
    (∀ e ∈ es, (sizeOf e.1 < n ∧ Good e.1 = true)
       ∧ (sizeOf e.2 < n ∧ Good e.2 = true)) → ∀ (s : S),
    ∃ ps, visitItems (visitC idF true n md) es ctx s = .ok (ps, s)
      ∧ normP ps = normP es ∧ (noModelP es = true → ps = es)
      ∧ (noModelL (es.map Prod.fst) = true → ps.map Prod.fst = es.map Prod.fst) := by
  intro es
  induction es with
  | nil => intro _ s; exact ⟨[], rfl, rfl, fun _ => rfl, fun _ => rfl⟩
  | cons e es IHl =>
    rcases e with ⟨k, v⟩
    intro h s
    obtain ⟨k', hk, hnk, hek⟩ :=
      IH k (h (k, v) (by simp)).1.1 (h (k, v) (by simp)).1.2 s
    obtain ⟨v', hv, hnv, hev⟩ :=
      IH v (h (k, v) (by simp)).2.1 (h (k, v) (by simp)).2.2 s
    obtain ⟨ps, hps, hnps, heps, hkps⟩ := IHl (fun e he => h e (by simp [he])) s
    refine ⟨(k', v') :: ps, ?_, ?_, ?_, ?_⟩
    · simp only [visitItems, hk, hv, hps]
    · simp [normP, hnk, hnv, hnps]
    · intro hnm
      simp only [noModelP, Bool.and_eq_true] at hnm
      rw [hek hnm.1.1, hev hnm.1.2, heps hnm.2]
    · intro hnm
      simp only [List.map_cons, noModelL, Bool.and_eq_true] at hnm
      simp [hek hnm.1, hkps hnm.2]

/-- Re-zipping a field list's names with its values is the identity. -/
theorem zip_eta : ∀ (fs : List (String × Value)),
    (fs.map Prod.fst).zip (fs.map Prod.snd) = fs := by
  intro fs
  induction fs with
  | nil => rfl
  | cons f fs IH => rcases f with ⟨nn, v⟩; simp [IH]

/-- Zipping names against `normV`-equal values normalizes equally. -/
theorem normF_zip : ∀ (fs : List (String × Value)) (vs : List Value),
    normL vs = normL (fs.map Prod.snd) →
    normF ((fs.map Prod.fst).zip vs) = normF fs := by
  intro fs
  induction fs with
  | nil => intro vs h; cases vs with
    | nil => rfl
    | cons v vs => simp [normL] at h
  | cons f fs IH =>
    rcases f with ⟨nn, w⟩
    intro vs h
    cases vs with
    | nil => simp [normL] at h
    | cons v vs =>
      simp only [List.map_cons, normL, List.cons.injEq] at h
      simp only [List.map_cons, List.zip_cons_cons, normF, h.1]
      show (nn, normV w) :: normF ((fs.map Prod.fst).zip vs)
          = (nn, normV w) :: normF fs
      rw [IH vs h.2]

/-- `freshKey` only looks at the keys. -/
theorem freshKey_keys : ∀ (seen seen' : List (Value × Value)) (k : Value),
    seen.map Prod.fst = seen'.map Prod.fst → freshKey k seen = freshKey k seen' := by
  intro seen
  induction seen with
  | nil => intro seen' k h; cases seen' with
    | nil => rfl
    | cons e s' => simp at h
  | cons e rest IH =>
    rcases e with ⟨k0, v0⟩
    intro seen' k h
    cases seen' with
    | nil => simp at h
    | cons e' rest' =>
      rcases e' with ⟨k0', v0'⟩
      simp only [List.map_cons, List.cons.injEq] at h
      simp [freshKey, h.1, IH rest' k h.2]

/-- `nodupKeysGo` only looks at the keys. -/
theorem nodupKeysGo_keys : ∀ (es es' seen seen' : List (Value × Value)),
    es.map Prod.fst = es'.map Prod.fst → seen.map Prod.fst = seen'.map Prod.fst →
    nodupKeysGo seen es = nodupKeysGo seen' es' := by
  intro es
  induction es with
  | nil => intro es' seen seen' h _; cases es' with
    | nil => rfl
    | cons e t => simp at h
  | cons e rest IH =>
    rcases e with ⟨k, v⟩
    intro es' seen seen' h hseen
    cases es' with
    | nil => simp at h
    | cons e' rest' =>
      rcases e' with ⟨k', v'⟩
      simp only [List.map_cons, List.cons.injEq] at h
      rw [nodupKeysGo, nodupKeysGo, freshKey_keys seen seen' k hseen,
        IH rest' (seen ++ [(k, v)]) (seen' ++ [(k', v')])
          h.2 (by simp [hseen, h.1]), h.1]

/-- `noModel` of the values of a field list. -/
theorem noModelL_map_snd : ∀ (fs : List (String × Value)),
    noModelL (fs.map Prod.snd) = noModelF fs := by
  intro fs
  induction fs with
  | nil => rfl
  | cons f fs IH =>
    rcases f with ⟨nn, v⟩
    simp [noModelL, noModelF, IH]

/-- C2: visiting any well-formed value built from lists, tuples, sets,
dicts/OrderedDicts, dataclasses, pydantic models, `Mock`s and annotation
wrappers with the identity transform in copy mode returns a structurally
equal value: equal up to the rebuilt `__fields_set__` bookkeeping (which
Python `==` ignores) in general, and *identical* when no pydantic model
occurs; the concrete subtype of every container is preserved, and the
context and visit-function state are untouched. -/
theorem c2_identity : ∀ (fuel : Nat) (x : Value), sizeOf x < fuel →
    Good x = true → ∀ (md : Int), md < 0 →
    ∀ (C S : Type) (ctx : Option C) (s : S),
    ∃ v, visitC idF true fuel md x ctx s = .ok (v, ctx, s)
      ∧ normV v = normV x ∧ (noModel x = true → v = x) := by
  intro fuel
  induction fuel with
  | zero => intro x hx; exact absurd hx (by omega)
  | succ n IH =>
    intro x hx hg md hmd C S ctx s
    have IH' : ∀ (y : Value), sizeOf y < n → Good y = true → ∀ (s' : S),
        ∃ v, visitC idF true n (md - 1) y ctx s' = .ok (v, ctx, s')
          ∧ normV v = normV y ∧ (noModel y = true → v = y) :=
      fun y hy hgy s' => IH y hy hgy (md - 1) (by omega) C S ctx s'
    rw [visitC]
    simp only [idF, Bool.true_or, if_true, eq_self_iff_true,
      if_neg (show ¬ md = 0 by omega)]
    cases x with
    | vnone => exact ⟨.vnone, rfl, rfl, fun _ => rfl⟩
    | vint m => exact ⟨.vint m, rfl, rfl, fun _ => rfl⟩
    | vstr t => exact ⟨.vstr t, rfl, rfl, fun _ => rfl⟩
    | vmock => exact ⟨.vmock, rfl, rfl, fun _ => rfl⟩
    | viter xs => simp [Good] at hg
    | vrevisit i => simp [Good] at hg
    | vann k i =>
      simp only [Good] at hg
      have hsi : sizeOf i < n := by
        simp_arith at hx
        omega
      obtain ⟨v, hrun, hnorm, hex⟩ := IH' i hsi hg s
      refine ⟨.vann k v, ?_, ?_, ?_⟩
      · simp only [hrun]
      · simp only [normV, hnorm]
      · intro hnm
        simp only [noModel] at hnm
        rw [hex hnm]
    | vlist xs =>
      simp only [Good] at hg
      have hch : ∀ y ∈ xs, sizeOf y < n ∧ Good y = true := by
        intro y hy
        refine ⟨?_, GoodL_mem xs hg y hy⟩
        have h1 := List.sizeOf_lt_of_mem hy
        simp_arith at hx
        omega
      obtain ⟨vs, hrun, hnorm, hex, hlen⟩ := visitSeq_id n (md - 1) ctx IH' xs hch s
      refine ⟨.vlist vs, ?_, ?_, ?_⟩
      · simp only [hrun]
      · simp only [normV, hnorm]
      · intro hnm
        simp only [noModel] at hnm
        rw [hex hnm]
    | vtuple xs =>
      simp only [Good] at hg
      have hch : ∀ y ∈ xs, sizeOf y < n ∧ Good y = true := by
        intro y hy
        refine ⟨?_, GoodL_mem xs hg y hy⟩
        have h1 := List.sizeOf_lt_of_mem hy
        simp_arith at hx
        omega
      obtain ⟨vs, hrun, hnorm, hex, hlen⟩ := visitSeq_id n (md - 1) ctx IH' xs hch s
      refine ⟨.vtuple vs, ?_, ?_, ?_⟩
      · simp only [hrun]
      · simp only [normV, hnorm]
      · intro hnm
        simp only [noModel] at hnm
        rw [hex hnm]
    | vset xs =>
      simp only [Good, Bool.and_eq_true] at hg
      obtain ⟨⟨hh, hnd⟩, hgl⟩ := hg
      have hch : ∀ y ∈ xs, sizeOf y < n ∧ Good y = true := by
        intro y hy
        refine ⟨?_, GoodL_mem xs hgl y hy⟩
        have h1 := List.sizeOf_lt_of_mem hy
        simp_arith at hx
        omega
      obtain ⟨vs, hrun, hnorm, hex, hlen⟩ := visitSeq_id n (md - 1) ctx IH' xs hch s
      have hnoM : noModelL xs = true := noModelL_of xs (fun y hy =>
        hashGood_noModel (sizeOf y) y (le_refl _) (GoodL_mem xs hgl y hy)
          (hashableL_mem xs hh y hy))
      rw [hex hnoM] at hrun
      refine ⟨.vset xs, ?_, rfl, fun _ => rfl⟩
      simp only [hrun, mkSet, mkSetGo_nodup xs [] hh hnd, Except.map,
        List.nil_append]
    | vdict dk es =>
      simp only [Good, Bool.and_eq_true] at hg
      obtain ⟨⟨hh, hnd⟩, hgp⟩ := hg
      have hch : ∀ e ∈ es, (sizeOf e.1 < n ∧ Good e.1 = true)
          ∧ (sizeOf e.2 < n ∧ Good e.2 = true) := by
        intro e he
        have h1 := List.sizeOf_lt_of_mem he
        rcases e with ⟨k, v⟩
        have hG := GoodP_mem es hgp (k, v) he
        refine ⟨⟨?_, hG.1⟩, ⟨?_, hG.2⟩⟩ <;> (simp_arith at hx h1 ⊢; omega)
      obtain ⟨ps, hrun, hnorm, hex, hkeys⟩ := visitItems_id n (md - 1) ctx IH' es hch s
      have hkeysNoM : noModelL (es.map Prod.fst) = true := by
        refine noModelL_of _ (fun y hy => ?_)
        rcases List.mem_map.mp hy with ⟨e, he, rfl⟩
        exact hashGood_noModel (sizeOf e.1) e.1 (le_refl _)
          (GoodP_mem es hgp e he).1
          (hashableL_mem _ hh e.1 (List.mem_map.mpr ⟨e, he, rfl⟩))
      have hpk : ps.map Prod.fst = es.map Prod.fst := hkeys hkeysNoM
      have hmk : mkDictGo [] ps = .ok ([] ++ ps) :=
        mkDictGo_nodup ps [] (by rw [hpk]; exact hh)
          (by rw [nodupKeysGo_keys ps es [] [] hpk rfl]; exact hnd)
      refine ⟨.vdict dk ps, ?_, ?_, ?_⟩
      · simp only [hrun, mkDict, hmk, Except.map, List.nil_append]
      · simp only [normV, hnorm]
      · intro hnm
        simp only [noModel] at hnm
        rw [hex hnm]
    | vdataclass cls fs =>
      simp only [Good, Bool.and_eq_true] at hg
      obtain ⟨hndk, hgf⟩ := hg
      have hch : ∀ y ∈ fs.map (fun p => p.2), sizeOf y < n ∧ Good y = true := by
        intro y hy
        rcases List.mem_map.mp hy with ⟨e, he, rfl⟩
        have h1 := List.sizeOf_lt_of_mem he
        rcases e with ⟨nn, w⟩
        refine ⟨?_, GoodF_mem fs hgf (nn, w) he⟩
        simp_arith at hx h1 ⊢
        omega
      obtain ⟨vs, hrun, hnorm, hex, hlen⟩ :=
        visitSeq_id n (md - 1) ctx IH' (fs.map (fun p => p.2)) hch s
      refine ⟨.vdataclass cls ((fs.map (fun p => p.1)).zip vs), ?_, ?_, ?_⟩
      · simp only [hrun]
      · simp only [normV]
        have hnorm' : normL vs = normL (fs.map Prod.snd) := hnorm
        have hz : normF ((fs.map (fun p => p.1)).zip vs) = normF fs :=
          normF_zip fs vs hnorm'
        rw [hz]
      · intro hnm
        simp only [noModel] at hnm
        have hvs : vs = fs.map Prod.snd :=
          hex (show noModelL (fs.map (fun p => p.2)) = true by
            have hx2 : noModelL (fs.map Prod.snd) = true := by
              rw [noModelL_map_snd]; exact hnm
            exact hx2)
        show Value.vdataclass cls ((fs.map Prod.fst).zip vs)
            = Value.vdataclass cls fs
        rw [hvs, zip_eta]
    | vmodel decl privN vals fset privs =>
      simp only [Good, Bool.and_eq_true] at hg
      obtain ⟨⟨⟨⟨⟨⟨⟨⟨ha, hb⟩, hc⟩, hd⟩, he⟩, hf⟩, hgn⟩, hhv⟩, hip⟩ := hg
      have hvkeys : vals.map Prod.fst = decl.map (fun d => d.1) :=
        of_decide_eq_true hb
      have hpkeys : privs.map Prod.fst = privN := of_decide_eq_true hf
      have hfsub' : ∀ a ∈ fset, a ∈ decl.map (fun d => d.1) := by
        intro a ha2
        simp only [List.all_eq_true] at hc
        have h3 := hc a ha2
        simpa using h3
      have he' : nodupStr ((modelFields fset (decl.map (fun d => d.1))).map
          (aliasKeyFor decl)) = true := he
      have hch : ∀ y ∈ (modelFields fset (decl.map (fun d => d.1))).map (getattrF vals),
          sizeOf y < n ∧ Good y = true := by
        intro y hy
        rcases List.mem_map.mp hy with ⟨nn, hnn, rfl⟩
        have hdn : nn ∈ decl.map (fun d => d.1) :=
          modelFields_sub fset _ nn hfsub' hnn
        have hvks : nn ∈ vals.map Prod.fst := by rw [hvkeys]; exact hdn
        rcases lookupF_of_mem_keys vals nn hvks with ⟨w, hw⟩
        have hmem := lookupF_mem vals nn w hw
        have hget : getattrF vals nn = w := by simp [getattrF, hw]
        rw [hget]
        refine ⟨?_, GoodF_mem vals hhv (nn, w) hmem⟩
        have h1 := List.sizeOf_lt_of_mem hmem
        simp_arith at hx h1 ⊢
        omega
      obtain ⟨items, hrun, hnormI, _, hlenI⟩ := visitSeq_id n (md - 1) ctx IH'
        ((modelFields fset (decl.map (fun d => d.1))).map (getattrF vals)) hch s
      have hfa0 := faOfNormL _ items hnormI
      have hfa : List.Forall₂
          (fun nn w => normV w = normV (getattrF vals nn))
          (modelFields fset (decl.map (fun d => d.1))) items :=
        List.forall₂_map_left_iff.mp hfa0
      have hkw : ∀ d ∈ decl, ∃ w,
          lookupF (modelKwargs decl
              (modelFields fset (decl.map (fun d => d.1))) items)
            (aliasKey d.1 d.2.1) = some w
          ∧ normV w = normV (getattrF vals d.1) := by
        intro d hd
        rcases d with ⟨nn, al, df⟩
        have hdn : nn ∈ decl.map (fun d => d.1) :=
          List.mem_map.mpr ⟨(nn, al, df), hd, rfl⟩
        have hmf : nn ∈ modelFields fset (decl.map (fun d => d.1)) :=
          mem_modelFields _ _ nn hdn
        rcases lookup_kwargs (modelFields fset (decl.map (fun d => d.1))) items
          (aliasKeyFor decl) _ hfa he' nn hmf with ⟨w, hw, hP⟩
        refine ⟨w, ?_, hP⟩
        rw [← aliasKeyFor_eq decl nn al df ha hd]
        simpa only [modelKwargs] using hw
      obtain ⟨vals', fset', hbv, hnormV⟩ :=
        buildVals_ok decl
          (modelKwargs decl (modelFields fset (decl.map (fun d => d.1))) items)
          vals hkw
      have hpriv : privN.map (fun a => (a, (lookupF privs a).getD Value.vnone))
          = privs := by
        have h2 := vals_eta privs (by rw [hpkeys]; exact hgn)
        calc privN.map (fun a => (a, (lookupF privs a).getD Value.vnone))
            = (privs.map Prod.fst).map (fun a => (a, getattrF privs a)) := by
              rw [hpkeys]; rfl
          _ = privs := h2
      have hnv : normF vals' = normF vals := by
        rw [hnormV]
        have hmm : decl.map (fun d => (d.1, getattrF vals d.1))
            = (decl.map (fun d => d.1)).map (fun nn => (nn, getattrF vals nn)) := by
          rw [List.map_map]
          rfl
        rw [hmm, ← hvkeys,
          vals_eta vals (show nodupStr (vals.map Prod.fst) = true by
            rw [hvkeys]; exact ha)]
      refine ⟨.vmodel decl privN vals' fset' privs, ?_, ?_, ?_⟩
      · simp only [hrun, mkModel, hbv, Except.map, withPrivs, hpriv]
      · simp only [normV, hnv]
      · intro hnm
        simp only [noModel] at hnm
        exact Bool.noConfusion hnm

/-- A composite value exercising every builder of the identity claim:
lists, tuples, sets, `dict` and `OrderedDict` (with non-string keys),
a dataclass, a pydantic model with alias/default/private attribute, an
annotation wrapper, and a `Mock`. -/
def c2x : Value :=
  .vdict .ordered
    [(.vstr "a", .vlist [.vint 1, .vtuple [.vstr "b", .vnone]]),
     (.vint 2, .vset [.vstr "s1", .vint 3]),
     (.vstr "m", .vmodel [("x", some "X", none), ("y", none, some (.vint 2))]
        ["_z"] [("x", .vint 1), ("y", .vint 2)] ["x"] [("_z", .vint 99)]),
     (.vstr "d", .vdataclass "DC" [("f1", .vann "quote" (.vint 7))]),
     (.vstr "p", .vdict .plain [(.vstr "k", .vmock)])]

/-- Witness for `c2_identity` on `c2x`. -/
theorem c2_identity_witness :
    ∃ v, visitC idF true (sizeOf c2x + 1) (-1) c2x (none : Option Unit) ()
      = .ok (v, none, ()) ∧ normV v = normV c2x ∧ (noModel c2x = true → v = c2x) :=
  c2_identity (sizeOf c2x + 1) c2x (Nat.lt_succ_self _)
    (by simp [c2x, Good, GoodL, GoodP, GoodF, Value.hashableL, Value.hashable,
      nodupStr, nodupKeysGo, nodupValsGo, freshKey, Value.beqMem, Value.beq,
      modelFields, aliasKeyFor, declLookup, aliasKey])
    (-1) (by decide) Unit Unit none ()
